import Mathlib

/-!
Verification of the SRT→ASS subtitle converter (`src/main.py`).

The three pure core functions of the repository are shallowly embedded here,
working over `List Char` (with `String` wrappers keeping the source names):

* `srt_time_to_ass`   — `main.py` lines 18–30,
* `convert_srt_to_ass` — `main.py` lines 32–72,
* `update_ass_styles`  — `main.py` lines 74–100.

Python-specific behaviour is modelled explicitly:

* `str.strip` / blank-line handling uses the whitespace set of `pyIsSpace`
  (the ASCII whitespace characters; the model does not cover the exotic
  Unicode whitespace code points, and general theorems restrict line
  characters to `plainChar`, where the two models agree).
* `str.splitlines` is modelled on the `\n`, `\r\n` and `\r` line boundaries.
* `re.split(r'\n\s*\n', text)`: a match of the separator regex is a span
  from a newline to a later newline with only whitespace in between, greedy
  and scanned left to right.  Equivalently, inside each maximal run of
  whitespace characters containing at least two newlines, the span from the
  run's first newline to its last newline is removed and splits the text;
  whitespace of the run before the first newline stays with the preceding
  piece, whitespace after the last newline with the following piece.
  `blocksGo` implements exactly this with an accumulator for the current
  piece and one for the pending whitespace run.
* `a, b = s.split(" --> ")` raises `ValueError` when the number of parts is
  not exactly two; fallible steps return `Option`, with `none` standing for
  a raised exception.
* `re.match(r'(\d{2}):(\d{2}):(\d{2}),(\d{3})', s)` anchors at the start
  only (a prefix match); `srtTimeCore` pattern-matches the first twelve
  characters and ignores the rest, as the regex does.
* The regex `(?s)(\[V4\+ Styles\].*?)(\n\[|$)` of `update_ass_styles`:
  the match starts at the first occurrence of the section header token and
  the lazy `.*?` stops at the first `"\n["` or at `$` (end of text, or just
  before a final newline).  `findPatAux` finds the first occurrence and
  `termScan` the first terminator.
-/

/-- The whitespace characters of Python's `str.strip` / `\s` (ASCII part). -/
def pyIsSpace (c : Char) : Bool :=
  c == ' ' || c == '\t' || c == '\n' || c == '\r' || c == '\x0b' || c == '\x0c'

/-- Characters on which the Lean model of Python string splitting is exact:
tab or printable ASCII.  General theorems restrict subtitle line content to
these characters. -/
def plainChar (c : Char) : Bool :=
  c == '\t' || (decide (32 ≤ c.toNat) && decide (c.toNat < 127))

/-- Model of `s.strip()` (`main.py` lines 56, 58, 61, 65, 66): drop whitespace
from both ends. -/
def pyStrip (s : List Char) : List Char :=
  ((s.dropWhile pyIsSpace).reverse.dropWhile pyIsSpace).reverse

/-- Worker for `str.splitlines`: `acc` is the current (partial) line; the
boundaries are `"\r\n"`, `"\n"` and `"\r"`. -/
def linesGo : List Char → List Char → List (List Char)
  | [], acc => if acc.isEmpty then [] else [acc]
  | '\r' :: '\n' :: rest, acc => acc :: linesGo rest []
  | c :: rest, acc =>
    if c = '\n' ∨ c = '\r' then acc :: linesGo rest []
    else linesGo rest (acc ++ [c])

/-- Model of `s.splitlines()` (`main.py` line 58). -/
def pySplitlines (s : List Char) : List (List Char) := linesGo s []

/-- The part of a whitespace run before its first newline. -/
def beforeNL (l : List Char) : List Char := l.takeWhile (fun c => c != '\n')

/-- The part of a whitespace run after its last newline. -/
def afterNL (l : List Char) : List Char := (l.reverse.takeWhile (fun c => c != '\n')).reverse

/-- Worker for `re.split(r'\n\s*\n', s)`: `acc` is the current piece,
`pend` the pending run of consecutive whitespace characters (not yet
attributed).  On leaving a whitespace run (next non-space character or end
of input) the run separates two pieces iff it contains at least two
newlines; see the header comment for why this is the regex behaviour. -/
def blocksGo : List Char → List Char → List Char → List (List Char)
  | [], acc, pend =>
    if 2 ≤ pend.count '\n' then [acc ++ beforeNL pend, afterNL pend]
    else [acc ++ pend]
  | c :: rest, acc, pend =>
    if pyIsSpace c then blocksGo rest acc (pend ++ [c])
    else if 2 ≤ pend.count '\n' then
      (acc ++ beforeNL pend) :: blocksGo rest (afterNL pend ++ [c]) []
    else blocksGo rest (acc ++ pend ++ [c]) []

/-- Model of `re.split(r'\n\s*\n', s)` (`main.py` line 56). -/
def pySplitBlocks (s : List Char) : List (List Char) := blocksGo s [] []

/-- Decimal digit character for a digit value. -/
def digitChar (d : Nat) : Char := Char.ofNat (48 + d)

/-- Numeric value of a digit character (what `int` does to one digit). -/
def digitVal (c : Char) : Nat := c.toNat - 48

/-- Fueled base-10 rendering worker (fuel `n + 1` always suffices). -/
def natDigitsAux : Nat → Nat → List Char → List Char
  | 0, _, acc => acc
  | fuel + 1, n, acc =>
    if n < 10 then digitChar n :: acc
    else natDigitsAux fuel (n / 10) (digitChar (n % 10) :: acc)

/-- Decimal rendering of a natural number, as Python's `f"{n}"`. -/
def natDigits (n : Nat) : List Char := natDigitsAux (n + 1) n []

/-- Python's `f"{n:02d}"`: decimal rendering padded to width 2. -/
def pad2 (n : Nat) : List Char := if n < 10 then '0' :: natDigits n else natDigits n

/-- Python's `f"{n:03d}"`: decimal rendering padded to width 3. -/
def pad3 (n : Nat) : List Char :=
  if n < 10 then '0' :: '0' :: natDigits n
  else if n < 100 then '0' :: natDigits n
  else natDigits n

/-- Core of `srt_time_to_ass` (`main.py` lines 18–30) on character lists.
`re.match(r'(\d{2}):(\d{2}):(\d{2}),(\d{3})', time_str)` matches a prefix
of at least twelve characters of the stated shape; on success the four
fields are converted with `int` and re-rendered as
`f"{hours}:{minutes:02d}:{seconds:02d}.{centiseconds:02d}"` where
`centiseconds = int(millis) // 10`; otherwise the input is returned
unchanged. -/
def srtTimeCore (s : List Char) : List Char :=
  match s with
  | a :: b :: c1 :: m1 :: m2 :: c2 :: s1 :: s2 :: c3 :: g :: h :: i :: _ =>
    if a.isDigit && b.isDigit && (c1 == ':') && m1.isDigit && m2.isDigit &&
        (c2 == ':') && s1.isDigit && s2.isDigit && (c3 == ',') &&
        g.isDigit && h.isDigit && i.isDigit then
      natDigits (10 * digitVal a + digitVal b) ++
        ':' :: (pad2 (10 * digitVal m1 + digitVal m2) ++
          ':' :: (pad2 (10 * digitVal s1 + digitVal s2) ++
            '.' :: pad2 ((100 * digitVal g + 10 * digitVal h + digitVal i) / 10)))
    else s
  | _ => s

/-- Whether the timestamp regex of `srt_time_to_ass` matches (a prefix of)
the input. -/
def srtMatches (s : List Char) : Bool :=
  match s with
  | a :: b :: c1 :: m1 :: m2 :: c2 :: s1 :: s2 :: c3 :: g :: h :: i :: _ =>
    a.isDigit && b.isDigit && (c1 == ':') && m1.isDigit && m2.isDigit &&
      (c2 == ':') && s1.isDigit && s2.isDigit && (c3 == ',') &&
      g.isDigit && h.isDigit && i.isDigit
  | _ => false

/-- The function `srt_time_to_ass` (`main.py` lines 18–30). -/
def srt_time_to_ass (time_str : String) : String := ⟨srtTimeCore time_str.data⟩

/-- The separator `" --> "` of the SRT time line (`main.py` lines 62–64). -/
def arrowSep : List Char := [' ', '-', '-', '>', ' ']

/-- Model of `" --> " in time_line` (`main.py` line 62): substring containment. -/
def containsArrow : List Char → Bool
  | [] => false
  | c :: t => arrowSep.isPrefixOf (c :: t) || containsArrow t

/-- Worker for `time_line.split(" --> ")`: split on each non-overlapping
occurrence of the separator, scanning left to right. -/
def splitArrowGo : List Char → List Char → List (List Char)
  | ' ' :: '-' :: '-' :: '>' :: ' ' :: rest, acc => acc :: splitArrowGo rest []
  | c :: rest, acc => splitArrowGo rest (acc ++ [c])
  | [], acc => [acc]

/-- Model of `time_line.split(" --> ")` (`main.py` line 64). -/
def splitArrow (s : List Char) : List (List Char) := splitArrowGo s []

/-- Model of `"\n".join`, `"\\N".join` and the like: join pieces with a
separator. -/
def joinWith (sep : List Char) : List (List Char) → List Char
  | [] => []
  | [x] => x
  | x :: y :: xs => x ++ sep ++ joinWith sep (y :: xs)

/-- The fixed ASS header of `convert_srt_to_ass` (`main.py` lines 37–52). -/
def headerStr : String :=
  "[Script Info]\n" ++
  "Title: Converted Subtitles\n" ++
  "ScriptType: v4.00+\n" ++
  "Collisions: Normal\n" ++
  "PlayResX: 1280\n" ++
  "PlayResY: 720\n" ++
  "Timer: 100.0000\n" ++
  "\n" ++
  "[V4+ Styles]\n" ++
  "Format: Name, Fontname, Fontsize, PrimaryColour, SecondaryColour, OutlineColour, BackColour, Bold, Italic, Underline, StrikeOut, ScaleX, ScaleY, Spacing, Angle, BorderStyle, Outline, Shadow, Alignment, MarginL, MarginR, MarginV, Encoding\n" ++
  "Style: Default,HelveticaRounded LT Std BdCn,78,&H00FFFFFF,&H000000FF,&H00000000,&H96000000,0,0,0,0,100,100,0,0,1,3,4.5,2,60,60,65,1\n" ++
  "\n" ++
  "[Events]\n" ++
  "Format: Layer, Start, End, Style, Name, MarginL, MarginR, MarginV, Effect, Text\n"

/-- The lines of `headerStr` (each line of the header is `'\n'`-terminated). -/
def headerLines : List (List Char) :=
  ["[Script Info]".data,
   "Title: Converted Subtitles".data,
   "ScriptType: v4.00+".data,
   "Collisions: Normal".data,
   "PlayResX: 1280".data,
   "PlayResY: 720".data,
   "Timer: 100.0000".data,
   [],
   "[V4+ Styles]".data,
   "Format: Name, Fontname, Fontsize, PrimaryColour, SecondaryColour, OutlineColour, BackColour, Bold, Italic, Underline, StrikeOut, ScaleX, ScaleY, Spacing, Angle, BorderStyle, Outline, Shadow, Alignment, MarginL, MarginR, MarginV, Encoding".data,
   "Style: Default,HelveticaRounded LT Std BdCn,78,&H00FFFFFF,&H000000FF,&H00000000,&H96000000,0,0,0,0,100,100,0,0,1,3,4.5,2,60,60,65,1".data,
   [],
   "[Events]".data,
   "Format: Layer, Start, End, Style, Name, MarginL, MarginR, MarginV, Effect, Text".data]

/-- Join lines, terminating each with `'\n'`. -/
def nlJoinAll : List (List Char) → List Char
  | [] => []
  | l :: ls => l ++ '\n' :: nlJoinAll ls

/-- The part of the loop body of `convert_srt_to_ass` (`main.py` lines
59–71) that runs on the list of lines of a block.  `none` models a raised
`ValueError` (the tuple unpacking
`start_str, end_str = time_line.split(" --> ")` fails when the number of
parts is not two); `some none` a block that is skipped (fewer than three
lines, or no `" --> "` in the time line); `some (some d)` an emitted
dialogue line. -/
def processLines (ls : List (List Char)) : Option (Option (List Char)) :=
  match ls with
  | _ :: l1 :: t2 :: ts =>
    if containsArrow (pyStrip l1) then
      match splitArrow (pyStrip l1) with
      | [st, en] =>
        some (some ("Dialogue: 0,".data ++ srtTimeCore (pyStrip st) ++
          ',' :: (srtTimeCore (pyStrip en) ++
            (",Default,,0,0,0,,".data ++ joinWith ['\\', 'N'] (t2 :: ts)))))
      | _ => none
    else some none
  | _ => some none

/-- The loop body of `convert_srt_to_ass` (`main.py` lines 57–71) for one
block: split the stripped block into lines and process them. -/
def processBlock (b : List Char) : Option (Option (List Char)) :=
  processLines (pySplitlines (pyStrip b))

/-- Run an option-valued function over a list, propagating the first
failure (a raised exception aborts the whole conversion). -/
def optMap (f : α → Option β) : List α → Option (List β)
  | [] => some []
  | a :: l =>
    match f a with
    | none => none
    | some b =>
      match optMap f l with
      | none => none
      | some bs => some (b :: bs)

/-- Core of `convert_srt_to_ass` (`main.py` lines 32–72) on character
lists: split the stripped text into blocks, process each block in order,
and append the surviving dialogue lines (joined with `"\n"`) to the fixed
header. -/
def convertCore (s : List Char) : Option (List Char) :=
  (optMap processBlock (pySplitBlocks (pyStrip s))).map
    (fun res => headerStr.data ++ joinWith ['\n'] (res.filterMap id))

/-- The function `convert_srt_to_ass` (`main.py` lines 32–72); `none` models a
raised exception. -/
def convert_srt_to_ass (srt_text : String) : Option String :=
  (convertCore srt_text.data).map (fun l => ⟨l⟩)

/-- A block whose processing raises `ValueError`: at least three lines and
a stripped time line that contains `" --> "` but does not split into
exactly two parts. -/
def blockRaises (b : List Char) : Bool :=
  match pySplitlines (pyStrip b) with
  | _ :: l1 :: _ :: _ =>
    containsArrow (pyStrip l1) && !((splitArrow (pyStrip l1)).length == 2)
  | _ => false

/-- A well-formed cue, given as its list of lines: at least three lines,
and the stripped time line splits on `" --> "` into exactly a start and an
end part. -/
def wellFormedLines (ls : List (List Char)) : Bool :=
  match ls with
  | _ :: l1 :: _ :: _ => (splitArrow (pyStrip l1)).length == 2
  | _ => false

/-- A malformed cue in the sense of the specification, given as its list
of lines: fewer than three lines, or a time line without the separator. -/
def malformedLines (ls : List (List Char)) : Bool :=
  match ls with
  | _ :: l1 :: _ :: _ => !containsArrow (pyStrip l1)
  | _ => true

/-- The dialogue line `convert_srt_to_ass` emits for a well-formed cue
given as its list of lines (`main.py` lines 64–70). -/
def dialogueOf (ls : List (List Char)) : List Char :=
  match ls with
  | _ :: l1 :: t2 :: ts =>
    match splitArrow (pyStrip l1) with
    | [st, en] =>
      "Dialogue: 0,".data ++ srtTimeCore (pyStrip st) ++
        ',' :: (srtTimeCore (pyStrip en) ++
          (",Default,,0,0,0,,".data ++ joinWith ['\\', 'N'] (t2 :: ts)))
    | _ => []
  | _ => []

/-- The lines of a document that begin with `Dialogue:`. -/
def dialogueLines (s : String) : List String :=
  ((pySplitlines s.data).filter (fun l => ("Dialogue:".data).isPrefixOf l)).map
    (fun l => ⟨l⟩)

/-- A subtitle line suitable for exact round-tripping through the
document serialization: nonempty, made of `plainChar` characters, and
not starting or ending in whitespace. -/
def tameLine (l : List Char) : Bool :=
  !l.isEmpty && l.all plainChar &&
    !pyIsSpace (l.headD 'x') && !pyIsSpace (l.getLastD 'x')

/-- Serialize one SRT block: its lines joined by single newlines. -/
def serBlock (b : List (List Char)) : List Char := joinWith ['\n'] b

/-- Serialize an SRT document: blocks joined by blank lines. -/
def mkSrt (bs : List (List (List Char))) : String :=
  ⟨joinWith ['\n', '\n'] (bs.map serBlock)⟩

/-- The custom style block of `update_ass_styles`
(`main.py` lines 79–83). -/
def ourStyleHeaderStr : String :=
  "[V4+ Styles]\n" ++
  "Format: Name, Fontname, Fontsize, PrimaryColour, SecondaryColour, OutlineColour, BackColour, Bold, Italic, Underline, StrikeOut, ScaleX, ScaleY, Spacing, Angle, BorderStyle, Outline, Shadow, Alignment, MarginL, MarginR, MarginV, Encoding\n" ++
  "Style: Default,HelveticaRounded LT Std BdCn,78,&H00FFFFFF,&H000000FF,&H00000000,&H96000000,0,0,0,0,100,100,0,0,1,3,4.5,2,60,60,65,1\n"

/-- The section header token `"[V4+ Styles]"` searched by the regex of
`update_ass_styles` (`main.py` line 85). -/
def stylesPat : List Char := "[V4+ Styles]".data

/-- The section header token `"[Script Info]"` searched by the fallback
regex of `update_ass_styles` (`main.py` line 92). -/
def scriptInfoPat : List Char := "[Script Info]".data

/-- Position of the first occurrence of `pat` in the list (how `re.search`
locates the section header token). -/
def findPatAux (pat : List Char) : List Char → Option Nat
  | [] => if pat.isPrefixOf ([] : List Char) then some 0 else none
  | c :: t => if pat.isPrefixOf (c :: t) then some 0 else (findPatAux pat t).map (· + 1)

/-- Offset of the first terminator of the lazy `.*?` in
`(?s)(\[V4\+ Styles\].*?)(\n\[|$)`: the next `"\n["`, or `$` (which in
Python matches at the end of the text and also just before a final
newline). -/
def termScan : List Char → Nat
  | [] => 0
  | [c] => if c = '\n' then 0 else 1
  | c :: d :: t => if c = '\n' ∧ d = '[' then 0 else termScan (d :: t) + 1

/-- Core of `update_ass_styles` (`main.py` lines 74–100) on character
lists.  If the styles section header occurs, the match (from the header to
the terminator) is replaced by the custom style block, keeping the
terminator text itself (`s.drop p` starts at the terminator).  Otherwise,
if the script-info section header occurs, the style block is inserted at
the end of group 1 of the fallback regex.  Otherwise the style block is
prepended. -/
def update_ass_core (s : List Char) : List Char :=
  match findPatAux stylesPat s with
  | some i =>
    let j := i + stylesPat.length
    s.take i ++ ourStyleHeaderStr.data ++ s.drop (j + termScan (s.drop j))
  | none =>
    match findPatAux scriptInfoPat s with
    | some i =>
      let j := i + scriptInfoPat.length
      let p := j + termScan (s.drop j)
      s.take p ++ '\n' :: ourStyleHeaderStr.data ++ s.drop p
    | none => ourStyleHeaderStr.data ++ '\n' :: s

/-- The function `update_ass_styles` (`main.py` lines 74–100). -/
def update_ass_styles (ass_text : String) : String := ⟨update_ass_core ass_text.data⟩

/-- The two-character terminator token `"\n["`. -/
def nlBr : List Char := ['\n', '[']

/-- SRT timestamp text `f"{hh:02d}:{mm:02d}:{ss:02d},{ms:03d}"`. -/
def srtFmtChars (hh mm ss ms : Nat) : List Char :=
  pad2 hh ++ ':' :: (pad2 mm ++ ':' :: (pad2 ss ++ ',' :: pad3 ms))

/-- ASS timestamp text `f"{h}:{mm:02d}:{ss:02d}.{cc:02d}"`. -/
def assFmtChars (hh mm ss cc : Nat) : List Char :=
  natDigits hh ++ ':' :: (pad2 mm ++ ':' :: (pad2 ss ++ '.' :: pad2 cc))

/-! ### Basic list and string helpers -/

theorem strData_append (a b : String) : (a ++ b).data = a.data ++ b.data := by
  cases a; cases b; rfl

theorem strMk_data (s : String) : String.mk s.data = s := by
  cases s; rfl

theorem isPrefixOf_self_append (pat r : List Char) : pat.isPrefixOf (pat ++ r) = true := by
  induction pat with
  | nil => simp
  | cons a t ih => simp [List.isPrefixOf, ih]

theorem isPrefixOf_of_append (l1 l2 y : List Char) (h : l1.isPrefixOf l2 = true) :
    l1.isPrefixOf (l2 ++ y) = true := by
  induction l1 generalizing l2 with
  | nil => simp
  | cons a t ih =>
    cases l2 with
    | nil => simp [List.isPrefixOf] at h
    | cons b t2 =>
      simp only [List.isPrefixOf, Bool.and_eq_true] at h ⊢
      exact ⟨h.1, ih t2 h.2⟩

theorem take_append_self (a b : List Char) : (a ++ b).take a.length = a := by
  induction a with
  | nil => rfl
  | cons x t ih => simp [ih]

theorem drop_append_self (a b : List Char) : (a ++ b).drop a.length = b := by
  induction a with
  | nil => rfl
  | cons x t ih => simp [ih]

theorem head?_append_left {α : Type} {a : List α} (b : List α) (h : a ≠ []) :
    (a ++ b).head? = a.head? := by
  cases a with
  | nil => exact absurd rfl h
  | cons x t => rfl

theorem getLast?_append_right {α : Type} (a : List α) {b : List α} (h : b ≠ []) :
    (a ++ b).getLast? = b.getLast? := by
  rw [List.getLast?_append]
  cases hb : b.getLast? with
  | none => exact absurd (List.getLast?_eq_none_iff.mp hb) h
  | some y => rfl

theorem getLast?_cons_of_ne_nil {α : Type} {c : α} {t : List α} (h : t ≠ []) :
    (c :: t).getLast? = t.getLast? := by
  cases t with
  | nil => exact absurd rfl h
  | cons y t2 => exact List.getLast?_cons_cons

theorem dropWhile_eq_self_of_head (p : Char → Bool) (l : List Char)
    (h : ∀ c, l.head? = some c → p c = false) : l.dropWhile p = l := by
  cases l with
  | nil => rfl
  | cons a t => simp [List.dropWhile_cons, h a rfl]

theorem pyStrip_eq_self (l : List Char)
    (h1 : ∀ c, l.head? = some c → pyIsSpace c = false)
    (h2 : ∀ c, l.getLast? = some c → pyIsSpace c = false) : pyStrip l = l := by
  unfold pyStrip
  rw [dropWhile_eq_self_of_head _ _ h1]
  rw [dropWhile_eq_self_of_head _ _ (by
    intro c hc
    apply h2
    rwa [← List.head?_reverse])]
  exact List.reverse_reverse l

theorem mem_takeWhile_mem {p : Char → Bool} {c : Char} :
    ∀ {l : List Char}, c ∈ l.takeWhile p → c ∈ l := by
  intro l
  induction l with
  | nil => simp
  | cons a t ih =>
    intro h
    rw [List.takeWhile_cons] at h
    by_cases hp : p a
    · simp [hp] at h
      rcases h with h | h
      · simp [h]
      · exact List.mem_cons_of_mem _ (ih h)
    · simp [hp] at h

theorem mem_takeWhile_sat {p : Char → Bool} {c : Char} :
    ∀ {l : List Char}, c ∈ l.takeWhile p → p c = true := by
  intro l
  induction l with
  | nil => simp
  | cons a t ih =>
    intro h
    rw [List.takeWhile_cons] at h
    by_cases hp : p a
    · simp [hp] at h
      rcases h with h | h
      · rwa [h]
      · exact ih h
    · simp [hp] at h

theorem dropWhile_head_not {p : Char → Bool} :
    ∀ {l : List Char} {c : Char}, (l.dropWhile p).head? = some c → p c = false := by
  intro l
  induction l with
  | nil => simp
  | cons a t ih =>
    intro c h
    rw [List.dropWhile_cons] at h
    by_cases hp : p a
    · simp [hp] at h
      exact ih h
    · simp [hp] at h
      rw [← h]
      simpa using hp

/-! ### Character class facts -/

theorem plainChar_ne_nl {c : Char} (h : plainChar c = true) : c ≠ '\n' := by
  rintro rfl; revert h; decide

theorem plainChar_ne_cr {c : Char} (h : plainChar c = true) : c ≠ '\r' := by
  rintro rfl; revert h; decide

theorem not_space_ne_nl {c : Char} (h : pyIsSpace c = false) : c ≠ '\n' := by
  rintro rfl; revert h; decide

/-! ### `linesGo` (str.splitlines) lemmas -/

theorem linesGo_nl (rest acc : List Char) :
    linesGo ('\n' :: rest) acc = acc :: linesGo rest [] := rfl

theorem linesGo_plain {c : Char} (h1 : c ≠ '\n') (h2 : c ≠ '\r') (rest acc : List Char) :
    linesGo (c :: rest) acc = linesGo rest (acc ++ [c]) := by
  rw [linesGo.eq_def]
  split
  · rename_i heq; cases heq
  · rename_i rest2 heq
    injection heq with e1 e2
    exact absurd e1 h2
  · rename_i c2 rest2 hnot heq
    injection heq with e1 e2
    subst e1; subst e2
    rw [if_neg]
    rintro (rfl | rfl)
    · exact h1 rfl
    · exact h2 rfl

theorem linesGo_line_append (l rest acc : List Char)
    (h : ∀ c ∈ l, c ≠ '\n' ∧ c ≠ '\r') :
    linesGo (l ++ rest) acc = linesGo rest (acc ++ l) := by
  induction l generalizing acc with
  | nil => simp
  | cons a t ih =>
    have ha := h a (by simp)
    rw [List.cons_append, linesGo_plain ha.1 ha.2, ih _ (fun c hc => h c (by simp [hc]))]
    have : (acc ++ [a]) ++ t = acc ++ a :: t := by simp
    rw [this]

theorem linesGo_serBlock (l : List Char) (b : List (List Char)) (acc : List Char)
    (hl : ∀ x ∈ l :: b, x ≠ [] ∧ ∀ c ∈ x, c ≠ '\n' ∧ c ≠ '\r') :
    linesGo (serBlock (l :: b)) acc = (acc ++ l) :: b := by
  induction b generalizing l acc with
  | nil =>
    have h := hl l (by simp)
    have hx := linesGo_line_append l [] acc h.2
    rw [List.append_nil] at hx
    show linesGo (joinWith ['\n'] [l]) acc = [acc ++ l]
    rw [joinWith, hx, linesGo, if_neg]
    simp [h.1]
  | cons l2 b2 ih =>
    have h := hl l (by simp)
    show linesGo (joinWith ['\n'] (l :: l2 :: b2)) acc = (acc ++ l) :: l2 :: b2
    rw [joinWith]
    have hassoc : (l ++ ['\n']) ++ joinWith ['\n'] (l2 :: b2) =
        l ++ '\n' :: joinWith ['\n'] (l2 :: b2) := by simp
    rw [hassoc, linesGo_line_append _ _ _ h.2, linesGo_nl]
    have hrec := ih l2 [] (fun x hx => hl x (by simp at hx ⊢; tauto))
    rw [serBlock] at hrec
    rw [hrec]
    simp

theorem pySplitlines_serBlock (l : List Char) (b : List (List Char))
    (hl : ∀ x ∈ l :: b, x ≠ [] ∧ ∀ c ∈ x, c ≠ '\n' ∧ c ≠ '\r') :
    pySplitlines (serBlock (l :: b)) = l :: b := by
  have := linesGo_serBlock l b [] hl
  simpa [pySplitlines] using this

theorem linesGo_nlJoin (ls : List (List Char)) (rest : List Char)
    (h : ∀ l ∈ ls, ∀ c ∈ l, c ≠ '\n' ∧ c ≠ '\r') :
    linesGo (nlJoinAll ls ++ rest) [] = ls ++ linesGo rest [] := by
  induction ls with
  | nil => simp [nlJoinAll]
  | cons l ls ih =>
    rw [nlJoinAll]
    have hassoc : (l ++ '\n' :: nlJoinAll ls) ++ rest = l ++ '\n' :: (nlJoinAll ls ++ rest) := by
      simp
    rw [hassoc, linesGo_line_append _ _ _ (h l (by simp)), linesGo_nl,
      ih (fun x hx => h x (by simp [hx]))]
    simp

/-! ### `blocksGo` (re.split on blank lines) lemmas -/

theorem mem_dropWhile_mem {p : Char → Bool} {c : Char} :
    ∀ {l : List Char}, c ∈ l.dropWhile p → c ∈ l := by
  intro l
  induction l with
  | nil => simp
  | cons a t ih =>
    intro h
    rw [List.dropWhile_cons] at h
    by_cases hp : p a
    · simp [hp] at h
      exact List.mem_cons_of_mem _ (ih h)
    · simpa [hp] using h

theorem blocksGo_ws {c : Char} (h : pyIsSpace c = true) (rest acc pend : List Char) :
    blocksGo (c :: rest) acc pend = blocksGo rest acc (pend ++ [c]) := by
  simp only [blocksGo]
  rw [if_pos h]

theorem blocksGo_wsrun (w : List Char) (hw : ∀ c ∈ w, pyIsSpace c = true)
    (rest acc pend : List Char) :
    blocksGo (w ++ rest) acc pend = blocksGo rest acc (pend ++ w) := by
  induction w generalizing pend with
  | nil => simp
  | cons a t ih =>
    rw [List.cons_append, blocksGo_ws (hw a (by simp)),
      ih (fun c hc => hw c (by simp [hc]))]
    have : (pend ++ [a]) ++ t = pend ++ a :: t := by simp
    rw [this]

theorem blocksGo_nonws_small {c : Char} (h : pyIsSpace c = false) {pend : List Char}
    (hp : pend.count '\n' < 2) (rest acc : List Char) :
    blocksGo (c :: rest) acc pend = blocksGo rest (acc ++ pend ++ [c]) [] := by
  simp only [blocksGo]
  rw [if_neg (by simp [h]), if_neg (by omega)]

theorem blocksGo_nonws_split {c : Char} (h : pyIsSpace c = false) {pend : List Char}
    (hp : 2 ≤ pend.count '\n') (rest acc : List Char) :
    blocksGo (c :: rest) acc pend
      = (acc ++ beforeNL pend) :: blocksGo rest (afterNL pend ++ [c]) [] := by
  simp only [blocksGo]
  rw [if_neg (by simp [h]), if_pos hp]

theorem blocksGo_nil_small {pend : List Char} (hp : pend.count '\n' < 2) (acc : List Char) :
    blocksGo [] acc pend = [acc ++ pend] := by
  simp only [blocksGo]
  rw [if_neg (by omega)]

theorem blocksGo_line : ∀ (n : Nat) (l : List Char), l.length ≤ n →
    (∀ c ∈ l, c ≠ '\n') →
    (∀ c, l.getLast? = some c → pyIsSpace c = false) →
    ∀ acc rest, blocksGo (l ++ rest) acc [] = blocksGo rest (acc ++ l) [] := by
  intro n
  induction n with
  | zero =>
    intro l hl _ _ acc rest
    have : l = [] := List.eq_nil_of_length_eq_zero (Nat.le_zero.mp hl)
    subst this; simp
  | succ n ih =>
    intro l hlen hnl hlast acc rest
    cases l with
    | nil => simp
    | cons c t =>
      by_cases hws : pyIsSpace c
      · -- the line starts with a whitespace run (no newline in it)
        have hsplit : (c :: t).takeWhile pyIsSpace ++ (c :: t).dropWhile pyIsSpace = c :: t :=
          List.takeWhile_append_dropWhile pyIsSpace (c :: t)
        set w := (c :: t).takeWhile pyIsSpace with hw
        set l2 := (c :: t).dropWhile pyIsSpace with hl2
        have hwmem : ∀ x ∈ w, pyIsSpace x = true := fun x hx => mem_takeWhile_sat hx
        have hl2ne : l2 ≠ [] := by
          intro h0
          rw [h0, List.append_nil] at hsplit
          obtain ⟨y, hy⟩ : ∃ y, (c :: t).getLast? = some y :=
            ⟨(c :: t).getLast (by simp), List.getLast?_eq_getLast _ (by simp)⟩
          have hyw : y ∈ w := by
            rw [hsplit]
            exact List.mem_of_getLast?_eq_some hy
          have hsp := hwmem y hyw
          rw [hlast y hy] at hsp
          cases hsp
        obtain ⟨d, t2, hdl⟩ : ∃ d t2, l2 = d :: t2 := by
          cases hc : l2 with
          | nil => exact absurd hc hl2ne
          | cons d t2 => exact ⟨d, t2, rfl⟩
        have hd : pyIsSpace d = false := dropWhile_head_not (by rw [← hl2, hdl]; rfl)
        have hwne : w ≠ [] := by
          rw [hw, List.takeWhile_cons, if_pos hws]
          simp
        have hwcount : w.count '\n' = 0 := by
          refine List.count_eq_zero.mpr fun hmem => ?_
          exact hnl '\n' (mem_takeWhile_mem hmem) rfl
        have step1 : blocksGo ((c :: t) ++ rest) acc [] = blocksGo (l2 ++ rest) acc w := by
          rw [← hsplit, List.append_assoc, blocksGo_wsrun w hwmem]
          simp
        have step2 : blocksGo (l2 ++ rest) acc w = blocksGo (t2 ++ rest) (acc ++ w ++ [d]) [] := by
          rw [hdl, List.cons_append, blocksGo_nonws_small hd (by omega)]
        have hlen2 : t2.length ≤ n := by
          have h1 : w.length + l2.length = t.length + 1 := by
            rw [← List.length_append, hsplit]; simp
          have h2 : l2.length = t2.length + 1 := by rw [hdl]; simp
          have h3 : 1 ≤ w.length := by
            cases hwc : w with
            | nil => exact absurd hwc hwne
            | cons a b => simp
          simp at hlen
          omega
        have hnl2 : ∀ x ∈ t2, x ≠ '\n' := by
          intro x hx
          refine hnl x ?_
          rw [← hsplit, hdl]
          exact List.mem_append_right _ (List.mem_cons_of_mem _ hx)
        have hlast2 : ∀ x, t2.getLast? = some x → pyIsSpace x = false := by
          intro x hx
          refine hlast x ?_
          have ht2ne : t2 ≠ [] := by
            intro h0; rw [h0] at hx; cases hx
          rw [← hsplit, hdl, getLast?_append_right _ (by simp),
            getLast?_cons_of_ne_nil ht2ne]
          exact hx
        rw [step1, step2, ih t2 hlen2 hnl2 hlast2]
        rw [← hsplit, hdl]
        have : (acc ++ w ++ [d]) ++ t2 = acc ++ (w ++ d :: t2) := by simp
        rw [this]
      · -- the line starts with a non-whitespace character
        have hws2 : pyIsSpace c = false := by simpa using hws
        rw [List.cons_append, blocksGo_nonws_small hws2 (by simp)]
        have hlen2 : t.length ≤ n := by simp at hlen; omega
        have hlast2 : ∀ x, t.getLast? = some x → pyIsSpace x = false := by
          intro x hx
          have htne : t ≠ [] := by intro h0; rw [h0] at hx; cases hx
          exact hlast x (by rw [getLast?_cons_of_ne_nil htne]; exact hx)
        rw [ih t hlen2 (fun x hx => hnl x (List.mem_cons_of_mem _ hx)) hlast2]
        have : (acc ++ [] ++ [c]) ++ t = acc ++ c :: t := by simp
        rw [this]

theorem blocksGo_nl_nonws {X : List Char} (hne : X ≠ [])
    (hh : ∀ e, X.head? = some e → pyIsSpace e = false) (acc : List Char) :
    blocksGo ('\n' :: X) acc [] = blocksGo X (acc ++ ['\n']) [] := by
  obtain ⟨d, r, rfl⟩ : ∃ d r, X = d :: r := by
    cases hc : X with
    | nil => exact absurd hc hne
    | cons d r => exact ⟨d, r, rfl⟩
  have hd := hh d rfl
  rw [blocksGo_ws (by decide), blocksGo_nonws_small hd (by decide),
    blocksGo_nonws_small hd (by simp)]
  simp

theorem blocksGo_sep {X : List Char} (hne : X ≠ [])
    (hh : ∀ e, X.head? = some e → pyIsSpace e = false) (acc : List Char) :
    blocksGo ('\n' :: '\n' :: X) acc [] = acc :: blocksGo X [] [] := by
  obtain ⟨d, r, rfl⟩ : ∃ d r, X = d :: r := by
    cases hc : X with
    | nil => exact absurd hc hne
    | cons d r => exact ⟨d, r, rfl⟩
  have hd := hh d rfl
  rw [blocksGo_ws (by decide), blocksGo_ws (by decide),
    blocksGo_nonws_split hd (by decide), blocksGo_nonws_small hd (by simp)]
  simp [beforeNL, afterNL]

/-! ### `joinWith` and `tameLine` helpers -/

theorem tameLine_props {l : List Char} (h : tameLine l = true) :
    l ≠ [] ∧ (∀ c ∈ l, plainChar c = true) ∧
      (∀ c, l.head? = some c → pyIsSpace c = false) ∧
      (∀ c, l.getLast? = some c → pyIsSpace c = false) := by
  unfold tameLine at h
  simp only [Bool.and_eq_true, Bool.not_eq_true', List.all_eq_true] at h
  obtain ⟨⟨⟨h1, h2⟩, h3⟩, h4⟩ := h
  have hne : l ≠ [] := by
    intro h0; subst h0; simp at h1
  refine ⟨hne, fun c hc => h2 c hc, ?_, ?_⟩
  · intro c hc
    have he : l.headD 'x' = c := by rw [List.headD_eq_head?_getD, hc]; rfl
    rwa [he] at h3
  · intro c hc
    have he : l.getLastD 'x' = c := by rw [List.getLastD_eq_getLast?, hc]; rfl
    rwa [he] at h4

theorem tameLine_ne_nl {l : List Char} (h : tameLine l = true) : ∀ c ∈ l, c ≠ '\n' :=
  fun c hc => plainChar_ne_nl ((tameLine_props h).2.1 c hc)

theorem tameLine_ne_cr {l : List Char} (h : tameLine l = true) : ∀ c ∈ l, c ≠ '\r' :=
  fun c hc => plainChar_ne_cr ((tameLine_props h).2.1 c hc)

theorem joinWith_ne_nil (sep x : List Char) (xs : List (List Char)) (hx : x ≠ []) :
    joinWith sep (x :: xs) ≠ [] := by
  cases xs with
  | nil => simpa [joinWith] using hx
  | cons y ys => simp [joinWith, hx]

theorem joinWith_head? (sep x : List Char) (xs : List (List Char)) (hx : x ≠ []) :
    (joinWith sep (x :: xs)).head? = x.head? := by
  cases xs with
  | nil => rfl
  | cons y ys =>
    show (x ++ sep ++ joinWith sep (y :: ys)).head? = x.head?
    rw [List.append_assoc, head?_append_left _ hx]

theorem joinWith_getLast? (sep : List Char) :
    ∀ (xs : List (List Char)) (x : List Char), xs.getLast? = some x → x ≠ [] →
      (joinWith sep xs).getLast? = x.getLast? := by
  intro xs
  induction xs with
  | nil => intro x h; cases h
  | cons a t ih =>
    intro x h hx
    cases t with
    | nil =>
      simp at h
      subst h
      rfl
    | cons b t2 =>
      rw [getLast?_cons_of_ne_nil (by simp)] at h
      have hrec := ih x h hx
      show (a ++ sep ++ joinWith sep (b :: t2)).getLast? = x.getLast?
      have hJne : joinWith sep (b :: t2) ≠ [] := by
        intro h0
        rw [h0] at hrec
        simp at hrec
        exact hx (List.getLast?_eq_none_iff.mp hrec.symm)
      rw [List.append_assoc, getLast?_append_right a (by simp [hJne]),
        getLast?_append_right sep hJne]
      exact hrec

theorem serBlock_ne_nil {b : List (List Char)} (hb : b ≠ [])
    (ht : ∀ l ∈ b, tameLine l = true) : serBlock b ≠ [] := by
  cases b with
  | nil => exact absurd rfl hb
  | cons l b2 =>
    exact joinWith_ne_nil _ l b2 (tameLine_props (ht l (by simp))).1

theorem serBlock_head_nonws {b : List (List Char)} (hb : b ≠ [])
    (ht : ∀ l ∈ b, tameLine l = true) :
    ∀ e, (serBlock b).head? = some e → pyIsSpace e = false := by
  cases b with
  | nil => exact absurd rfl hb
  | cons l b2 =>
    intro e he
    have props := tameLine_props (ht l (by simp))
    rw [serBlock, joinWith_head? _ l b2 props.1] at he
    exact props.2.2.1 e he

theorem serBlock_getLast_nonws {b : List (List Char)} (hb : b ≠ [])
    (ht : ∀ l ∈ b, tameLine l = true) :
    ∀ e, (serBlock b).getLast? = some e → pyIsSpace e = false := by
  intro e he
  obtain ⟨x, hx⟩ : ∃ x, b.getLast? = some x :=
    ⟨b.getLast hb, List.getLast?_eq_getLast b hb⟩
  have hxt := ht x (List.mem_of_getLast?_eq_some hx)
  have props := tameLine_props hxt
  rw [serBlock, joinWith_getLast? _ b x hx props.1] at he
  exact props.2.2.2 e he

/-! ### blocksGo at the block and document levels -/

theorem blocksGo_serBlock_end (b : List (List Char)) (hb : b ≠ [])
    (ht : ∀ l ∈ b, tameLine l = true) (acc : List Char) :
    blocksGo (serBlock b) acc [] = [acc ++ serBlock b] := by
  induction b generalizing acc with
  | nil => exact absurd rfl hb
  | cons l b2 ih =>
    have props := tameLine_props (ht l (by simp))
    cases b2 with
    | nil =>
      show blocksGo (joinWith ['\n'] [l]) acc [] = [acc ++ joinWith ['\n'] [l]]
      rw [joinWith]
      have hx := blocksGo_line l.length l le_rfl (tameLine_ne_nl (ht l (by simp)))
        props.2.2.2 acc []
      rw [List.append_nil] at hx
      rw [hx, blocksGo_nil_small (by simp)]
      simp
    | cons l2 b3 =>
      show blocksGo (joinWith ['\n'] (l :: l2 :: b3)) acc []
        = [acc ++ joinWith ['\n'] (l :: l2 :: b3)]
      rw [joinWith]
      have hassoc : (l ++ ['\n']) ++ joinWith ['\n'] (l2 :: b3)
          = l ++ '\n' :: joinWith ['\n'] (l2 :: b3) := by simp
      rw [hassoc, blocksGo_line l.length l le_rfl (tameLine_ne_nl (ht l (by simp)))
        props.2.2.2 acc _]
      have hts : ∀ x ∈ l2 :: b3, tameLine x = true := fun x hx => ht x (by simp at hx ⊢; tauto)
      have hJne : joinWith ['\n'] (l2 :: b3) ≠ [] :=
        joinWith_ne_nil _ l2 b3 (tameLine_props (hts l2 (by simp))).1
      have hJh : ∀ e, (joinWith ['\n'] (l2 :: b3)).head? = some e → pyIsSpace e = false := by
        intro e he
        rw [joinWith_head? _ l2 b3 (tameLine_props (hts l2 (by simp))).1] at he
        exact (tameLine_props (hts l2 (by simp))).2.2.1 e he
      rw [blocksGo_nl_nonws hJne hJh]
      have hrec := ih (by simp) hts (acc ++ l ++ ['\n'])
      rw [serBlock] at hrec
      rw [hrec]
      simp

theorem blocksGo_serBlock_mid (b : List (List Char)) (hb : b ≠ [])
    (ht : ∀ l ∈ b, tameLine l = true) {X : List Char} (hX : X ≠ [])
    (hXh : ∀ e, X.head? = some e → pyIsSpace e = false) (acc : List Char) :
    blocksGo (serBlock b ++ '\n' :: '\n' :: X) acc []
      = (acc ++ serBlock b) :: blocksGo X [] [] := by
  induction b generalizing acc with
  | nil => exact absurd rfl hb
  | cons l b2 ih =>
    have props := tameLine_props (ht l (by simp))
    cases b2 with
    | nil =>
      show blocksGo (joinWith ['\n'] [l] ++ '\n' :: '\n' :: X) acc []
        = (acc ++ joinWith ['\n'] [l]) :: blocksGo X [] []
      rw [joinWith,
        blocksGo_line l.length l le_rfl (tameLine_ne_nl (ht l (by simp))) props.2.2.2 acc _,
        blocksGo_sep hX hXh]
    | cons l2 b3 =>
      show blocksGo (joinWith ['\n'] (l :: l2 :: b3) ++ '\n' :: '\n' :: X) acc []
        = (acc ++ joinWith ['\n'] (l :: l2 :: b3)) :: blocksGo X [] []
      rw [joinWith]
      have hassoc : ((l ++ ['\n']) ++ joinWith ['\n'] (l2 :: b3)) ++ '\n' :: '\n' :: X
          = l ++ '\n' :: (joinWith ['\n'] (l2 :: b3) ++ '\n' :: '\n' :: X) := by simp
      rw [hassoc, blocksGo_line l.length l le_rfl (tameLine_ne_nl (ht l (by simp)))
        props.2.2.2 acc _]
      have hts : ∀ x ∈ l2 :: b3, tameLine x = true := fun x hx => ht x (by simp at hx ⊢; tauto)
      have hJne : joinWith ['\n'] (l2 :: b3) ++ '\n' :: '\n' :: X ≠ [] := by simp
      have hJh : ∀ e, (joinWith ['\n'] (l2 :: b3) ++ '\n' :: '\n' :: X).head? = some e →
          pyIsSpace e = false := by
        intro e he
        rw [head?_append_left _ (joinWith_ne_nil _ l2 b3 (tameLine_props (hts l2 (by simp))).1),
          joinWith_head? _ l2 b3 (tameLine_props (hts l2 (by simp))).1] at he
        exact (tameLine_props (hts l2 (by simp))).2.2.1 e he
      rw [blocksGo_nl_nonws hJne hJh]
      have hrec := ih (by simp) hts (acc ++ l ++ ['\n'])
      rw [serBlock] at hrec
      rw [hrec]
      simp

theorem blocksGo_doc : ∀ (bs : List (List (List Char))) (b : List (List Char)) (acc : List Char),
    (∀ bb ∈ b :: bs, bb ≠ [] ∧ ∀ l ∈ bb, tameLine l = true) →
    blocksGo (joinWith ['\n', '\n'] ((b :: bs).map serBlock)) acc []
      = (acc ++ serBlock b) :: bs.map serBlock := by
  intro bs
  induction bs with
  | nil =>
    intro b acc h
    have hb := h b (by simp)
    show blocksGo (joinWith ['\n', '\n'] [serBlock b]) acc [] = [acc ++ serBlock b]
    rw [joinWith]
    exact blocksGo_serBlock_end b hb.1 hb.2 acc
  | cons b2 bs2 ih =>
    intro b acc h
    have hb := h b (by simp)
    have hb2 := h b2 (by simp)
    show blocksGo (joinWith ['\n', '\n'] (serBlock b :: serBlock b2 :: bs2.map serBlock)) acc []
      = (acc ++ serBlock b) :: serBlock b2 :: bs2.map serBlock
    rw [joinWith]
    have hassoc : (serBlock b ++ ['\n', '\n']) ++ joinWith ['\n', '\n'] (serBlock b2 :: bs2.map serBlock)
        = serBlock b ++ '\n' :: '\n' :: joinWith ['\n', '\n'] (serBlock b2 :: bs2.map serBlock) := by
      simp
    rw [hassoc]
    have hJne : joinWith ['\n', '\n'] (serBlock b2 :: bs2.map serBlock) ≠ [] :=
      joinWith_ne_nil _ _ _ (serBlock_ne_nil hb2.1 hb2.2)
    have hJh : ∀ e, (joinWith ['\n', '\n'] (serBlock b2 :: bs2.map serBlock)).head? = some e →
        pyIsSpace e = false := by
      intro e he
      rw [joinWith_head? _ _ _ (serBlock_ne_nil hb2.1 hb2.2)] at he
      exact serBlock_head_nonws hb2.1 hb2.2 e he
    rw [blocksGo_serBlock_mid b hb.1 hb.2 hJne hJh acc]
    have hrec := ih b2 [] (fun bb hbb => h bb (by simp at hbb ⊢; tauto))
    rw [List.map_cons] at hrec
    rw [hrec]
    simp

/-! ### `splitArrow` / `containsArrow` lemmas -/

theorem splitArrowGo_pos (rest acc : List Char) :
    splitArrowGo (' ' :: '-' :: '-' :: '>' :: ' ' :: rest) acc
      = acc :: splitArrowGo rest [] := rfl

theorem arrowSep_shape {c : Char} {t : List Char} (h : arrowSep.isPrefixOf (c :: t) = true) :
    ∃ r, c :: t = ' ' :: '-' :: '-' :: '>' :: ' ' :: r := by
  rcases t with _ | ⟨c2, _ | ⟨c3, _ | ⟨c4, _ | ⟨c5, r⟩⟩⟩⟩ <;>
    simp [arrowSep, List.isPrefixOf] at h
  obtain ⟨rfl, rfl, rfl, rfl, rfl⟩ := h
  exact ⟨r, rfl⟩

theorem splitArrowGo_neg (c : Char) (t acc : List Char)
    (h : arrowSep.isPrefixOf (c :: t) = false) :
    splitArrowGo (c :: t) acc = splitArrowGo t (acc ++ [c]) := by
  rw [splitArrowGo.eq_def]
  split
  · rename_i rest heq
    injection heq with h1 h2
    subst h1; subst h2
    simp [arrowSep, List.isPrefixOf] at h
  · rename_i c2 rest2 hne heq
    injection heq with h1 h2
    subst h1; subst h2
    rfl
  · rename_i heq; cases heq

theorem splitArrowGo_length_pos : ∀ (s acc : List Char), 1 ≤ (splitArrowGo s acc).length := by
  intro s
  induction s with
  | nil => intro acc; simp [splitArrowGo]
  | cons c t ih =>
    intro acc
    by_cases hp : arrowSep.isPrefixOf (c :: t) = true
    · obtain ⟨r, hr⟩ := arrowSep_shape hp
      rw [hr, splitArrowGo_pos]
      simp
    · rw [splitArrowGo_neg c t acc (by simp only [Bool.not_eq_true] at hp; exact hp)]
      exact ih _

theorem containsArrow_iff_parts : ∀ (s acc : List Char),
    containsArrow s = true ↔ 2 ≤ (splitArrowGo s acc).length := by
  intro s
  induction s with
  | nil =>
    intro acc
    simp [containsArrow, splitArrowGo]
  | cons c t ih =>
    intro acc
    by_cases hp : arrowSep.isPrefixOf (c :: t) = true
    · obtain ⟨r, hr⟩ := arrowSep_shape hp
      constructor
      · intro _
        rw [hr, splitArrowGo_pos]
        have := splitArrowGo_length_pos r []
        simp
        omega
      · intro _
        show (arrowSep.isPrefixOf (c :: t) || containsArrow t) = true
        simp [hp]
    · rw [splitArrowGo_neg c t acc (by simp only [Bool.not_eq_true] at hp; exact hp)]
      have hc : containsArrow (c :: t) = containsArrow t := by
        show (arrowSep.isPrefixOf (c :: t) || containsArrow t) = containsArrow t
        simp [by simp only [Bool.not_eq_true] at hp; exact hp]
      rw [hc]
      exact ih _

theorem splitArrowGo_subset : ∀ (n : Nat) (s : List Char), s.length ≤ n →
    ∀ (acc x : List Char), x ∈ splitArrowGo s acc → ∀ ch ∈ x, ch ∈ s ∨ ch ∈ acc := by
  intro n
  induction n with
  | zero =>
    intro s hlen acc x hx ch hch
    have : s = [] := List.eq_nil_of_length_eq_zero (Nat.le_zero.mp hlen)
    subst this
    simp [splitArrowGo] at hx
    subst hx
    exact Or.inr hch
  | succ n ih =>
    intro s hlen acc x hx ch hch
    cases s with
    | nil =>
      simp [splitArrowGo] at hx
      subst hx
      exact Or.inr hch
    | cons c t =>
      by_cases hp : arrowSep.isPrefixOf (c :: t) = true
      · obtain ⟨r, hr⟩ := arrowSep_shape hp
        injection hr with e1 e2
        subst e1; subst e2
        rw [splitArrowGo_pos] at hx
        rcases List.mem_cons.mp hx with hx | hx
        · subst hx
          exact Or.inr hch
        · have hrlen : r.length ≤ n := by simp at hlen; omega
          rcases ih r hrlen [] x hx ch hch with h | h
          · exact Or.inl (by simp [h])
          · simp at h
      · rw [splitArrowGo_neg c t acc (by simp only [Bool.not_eq_true] at hp; exact hp)] at hx
        have htlen : t.length ≤ n := by simp at hlen; omega
        rcases ih t htlen (acc ++ [c]) x hx ch hch with h | h
        · exact Or.inl (List.mem_cons_of_mem _ h)
        · rcases List.mem_append.mp h with h | h
          · exact Or.inr h
          · simp at h
            exact Or.inl (by simp [h])

/-! ### Digit and timestamp rendering lemmas -/

theorem digitChar_isDigit : ∀ d, d < 10 → (digitChar d).isDigit = true := by decide

theorem digitVal_digitChar : ∀ d, d < 10 → digitVal (digitChar d) = d := by decide

theorem digitChar_ne_nl : ∀ d, d < 10 → digitChar d ≠ '\n' := by decide

theorem natDigitsAux_small {n : Nat} (h : n < 10) (fuel : Nat) (acc : List Char)
    (hf : 1 ≤ fuel) : natDigitsAux fuel n acc = digitChar n :: acc := by
  obtain ⟨m, rfl⟩ : ∃ m, fuel = m + 1 := ⟨fuel - 1, by omega⟩
  simp [natDigitsAux, h]

theorem natDigitsAux_step {n : Nat} (h : 10 ≤ n) (fuel : Nat) (acc : List Char) :
    natDigitsAux (fuel + 1) n acc = natDigitsAux fuel (n / 10) (digitChar (n % 10) :: acc) := by
  simp [natDigitsAux, Nat.not_lt.mpr h]

theorem natDigits_small {n : Nat} (h : n < 10) : natDigits n = [digitChar n] :=
  natDigitsAux_small h _ _ (by omega)

theorem natDigits_two {n : Nat} (h1 : 10 ≤ n) (h2 : n < 100) :
    natDigits n = [digitChar (n / 10), digitChar (n % 10)] := by
  unfold natDigits
  rw [natDigitsAux_step h1, natDigitsAux_small (by omega) _ _ (by omega)]

theorem natDigits_three {n : Nat} (h1 : 100 ≤ n) (h2 : n < 1000) :
    natDigits n = [digitChar (n / 100), digitChar (n / 10 % 10), digitChar (n % 10)] := by
  unfold natDigits
  rw [natDigitsAux_step (by omega)]
  obtain ⟨m, rfl⟩ : ∃ m, n = m + 1 := ⟨n - 1, by omega⟩
  rw [natDigitsAux_step (by omega)]
  rw [natDigitsAux_small (by omega) _ _ (by omega)]
  rw [Nat.div_div_eq_div_mul]

theorem pad2_eq {n : Nat} (h : n < 100) :
    pad2 n = [digitChar (n / 10), digitChar (n % 10)] := by
  unfold pad2
  by_cases h1 : n < 10
  · rw [if_pos h1, natDigits_small h1]
    have e1 : n / 10 = 0 := by omega
    have e2 : n % 10 = n := by omega
    rw [e1, e2]
    rfl
  · rw [if_neg h1, natDigits_two (by omega) h]

theorem pad3_eq {n : Nat} (h : n < 1000) :
    pad3 n = [digitChar (n / 100), digitChar (n / 10 % 10), digitChar (n % 10)] := by
  unfold pad3
  by_cases h1 : n < 10
  · rw [if_pos h1, natDigits_small h1]
    have e1 : n / 100 = 0 := by omega
    have e2 : n / 10 % 10 = 0 := by omega
    have e3 : n % 10 = n := by omega
    rw [e1, e2, e3]
    rfl
  · rw [if_neg h1]
    by_cases h2 : n < 100
    · rw [if_pos h2, natDigits_two (by omega) h2]
      have e1 : n / 100 = 0 := by omega
      have e2 : n / 10 % 10 = n / 10 := by omega
      rw [e1, e2]
      rfl
    · rw [if_neg h2, natDigits_three (by omega) h]

theorem srtTimeCore_format {hh mm ss ms : Nat} (h1 : hh < 100) (h2 : mm < 100)
    (h3 : ss < 100) (h4 : ms < 1000) :
    srtTimeCore (srtFmtChars hh mm ss ms) = assFmtChars hh mm ss (ms / 10) := by
  unfold srtFmtChars
  rw [pad2_eq h1, pad2_eq h2, pad2_eq h3, pad3_eq h4]
  simp only [List.cons_append, List.nil_append]
  show srtTimeCore (digitChar (hh / 10) :: digitChar (hh % 10) :: ':' ::
      digitChar (mm / 10) :: digitChar (mm % 10) :: ':' ::
      digitChar (ss / 10) :: digitChar (ss % 10) :: ',' ::
      digitChar (ms / 100) :: digitChar (ms / 10 % 10) :: digitChar (ms % 10) :: [])
    = assFmtChars hh mm ss (ms / 10)
  have d1 := digitChar_isDigit (hh / 10) (by omega)
  have d2 := digitChar_isDigit (hh % 10) (by omega)
  have d3 := digitChar_isDigit (mm / 10) (by omega)
  have d4 := digitChar_isDigit (mm % 10) (by omega)
  have d5 := digitChar_isDigit (ss / 10) (by omega)
  have d6 := digitChar_isDigit (ss % 10) (by omega)
  have d7 := digitChar_isDigit (ms / 100) (by omega)
  have d8 := digitChar_isDigit (ms / 10 % 10) (by omega)
  have d9 := digitChar_isDigit (ms % 10) (by omega)
  simp only [srtTimeCore]
  rw [if_pos (by simp [d1, d2, d3, d4, d5, d6, d7, d8, d9])]
  rw [digitVal_digitChar _ (by omega : hh / 10 < 10),
    digitVal_digitChar _ (by omega : hh % 10 < 10),
    digitVal_digitChar _ (by omega : mm / 10 < 10),
    digitVal_digitChar _ (by omega : mm % 10 < 10),
    digitVal_digitChar _ (by omega : ss / 10 < 10),
    digitVal_digitChar _ (by omega : ss % 10 < 10),
    digitVal_digitChar _ (by omega : ms / 100 < 10),
    digitVal_digitChar _ (by omega : ms / 10 % 10 < 10),
    digitVal_digitChar _ (by omega : ms % 10 < 10)]
  have e1 : 10 * (hh / 10) + hh % 10 = hh := by omega
  have e2 : 10 * (mm / 10) + mm % 10 = mm := by omega
  have e3 : 10 * (ss / 10) + ss % 10 = ss := by omega
  have e4 : 100 * (ms / 100) + 10 * (ms / 10 % 10) + ms % 10 = ms := by omega
  rw [e1, e2, e3, e4]
  rfl

theorem srtTimeCore_no_match {s : List Char} (h : srtMatches s = false) :
    srtTimeCore s = s := by
  rcases s with _ | ⟨a, _ | ⟨b, _ | ⟨c1, _ | ⟨m1, _ | ⟨m2, _ | ⟨c2, _ | ⟨s1, _ | ⟨s2, _ |
    ⟨c3, _ | ⟨g, _ | ⟨hc, _ | ⟨ic, rest⟩⟩⟩⟩⟩⟩⟩⟩⟩⟩⟩⟩
  case nil => rfl
  case cons.nil => rfl
  case cons.cons.nil => rfl
  case cons.cons.cons.nil => rfl
  case cons.cons.cons.cons.nil => rfl
  case cons.cons.cons.cons.cons.nil => rfl
  case cons.cons.cons.cons.cons.cons.nil => rfl
  case cons.cons.cons.cons.cons.cons.cons.nil => rfl
  case cons.cons.cons.cons.cons.cons.cons.cons.nil => rfl
  case cons.cons.cons.cons.cons.cons.cons.cons.cons.nil => rfl
  case cons.cons.cons.cons.cons.cons.cons.cons.cons.cons.nil => rfl
  case cons.cons.cons.cons.cons.cons.cons.cons.cons.cons.cons.nil => rfl
  case cons.cons.cons.cons.cons.cons.cons.cons.cons.cons.cons.cons =>
    simp only [srtMatches] at h
    simp only [srtTimeCore]
    rw [if_neg (by simp [h])]

/-! ### `findPatAux` and `termScan` lemmas -/

theorem findPatAux_some (pat : List Char) (hne : pat ≠ []) :
    ∀ (s : List Char) (k : Nat), pat.isPrefixOf (s.drop k) = true →
      (∀ j, j < k → pat.isPrefixOf (s.drop j) = false) →
      findPatAux pat s = some k := by
  intro s
  induction s with
  | nil =>
    intro k hk _
    rw [List.drop_nil] at hk
    cases pat with
    | nil => exact absurd rfl hne
    | cons p pt => simp [List.isPrefixOf] at hk
  | cons c t ih =>
    intro k hk hlt
    cases k with
    | zero =>
      rw [List.drop_zero] at hk
      unfold findPatAux
      rw [if_pos hk]
    | succ k2 =>
      have h0 := hlt 0 (by omega)
      rw [List.drop_zero] at h0
      unfold findPatAux
      rw [if_neg (by simp [h0])]
      rw [ih k2 (by simpa using hk) (fun j hj => by simpa using hlt (j + 1) (by omega))]
      rfl

theorem findPatAux_none (pat : List Char) (hne : pat ≠ []) :
    ∀ (s : List Char), (∀ j, j < s.length → pat.isPrefixOf (s.drop j) = false) →
      findPatAux pat s = none := by
  intro s
  induction s with
  | nil =>
    intro _
    unfold findPatAux
    rw [if_neg]
    cases pat with
    | nil => exact absurd rfl hne
    | cons p pt => simp [List.isPrefixOf]
  | cons c t ih =>
    intro h
    have h0 := h 0 (by simp)
    rw [List.drop_zero] at h0
    unfold findPatAux
    rw [if_neg (by simp [h0])]
    rw [ih (fun j hj => by simpa using h (j + 1) (by simpa using hj))]
    rfl

theorem termScan_term (c d : Char) (r : List Char) (h : c = '\n' ∧ d = '[') :
    termScan (c :: d :: r) = 0 := by
  show (if c = '\n' ∧ d = '[' then 0 else termScan (d :: r) + 1) = 0
  rw [if_pos h]

theorem termScan_not_term {c d : Char} (r : List Char) (h : ¬(c = '\n' ∧ d = '[')) :
    termScan (c :: d :: r) = termScan (d :: r) + 1 := by
  show (if c = '\n' ∧ d = '[' then 0 else termScan (d :: r) + 1) = termScan (d :: r) + 1
  rw [if_neg h]

theorem nlBr_shape {c : Char} {t : List Char} (h : nlBr.isPrefixOf (c :: t) = true) :
    ∃ r, c = '\n' ∧ t = '[' :: r := by
  cases t with
  | nil => simp [nlBr, List.isPrefixOf] at h
  | cons d r =>
    simp [nlBr, List.isPrefixOf] at h
    obtain ⟨h1, h2⟩ := h
    subst h1; subst h2
    exact ⟨r, rfl, rfl⟩

theorem termScan_finds : ∀ (u : List Char) (k : Nat),
    nlBr.isPrefixOf (u.drop k) = true →
    (∀ j, j < k → nlBr.isPrefixOf (u.drop j) = false) →
    termScan u = k := by
  intro u
  induction u with
  | nil =>
    intro k hk _
    rw [List.drop_nil] at hk
    simp [nlBr, List.isPrefixOf] at hk
  | cons c t ih =>
    intro k hk hlt
    cases k with
    | zero =>
      rw [List.drop_zero] at hk
      obtain ⟨r, rfl, rfl⟩ := nlBr_shape hk
      exact termScan_term _ _ _ ⟨rfl, rfl⟩
    | succ k2 =>
      have h0 := hlt 0 (by omega)
      rw [List.drop_zero] at h0
      cases t with
      | nil =>
        rw [List.drop_succ_cons, List.drop_nil] at hk
        simp [nlBr, List.isPrefixOf] at hk
      | cons d r =>
        have hterm : ¬(c = '\n' ∧ d = '[') := by
          rintro ⟨rfl, rfl⟩
          simp [nlBr, List.isPrefixOf] at h0
        rw [termScan_not_term _ hterm]
        rw [ih k2 (by simpa using hk) (fun j hj => by simpa using hlt (j + 1) (by omega))]

theorem termScan_no_term : ∀ (u : List Char),
    (∀ j, j < u.length → nlBr.isPrefixOf (u.drop j) = false) →
    (∀ e, u.getLast? = some e → e ≠ '\n') →
    termScan u = u.length := by
  intro u
  induction u with
  | nil => intro _ _; rfl
  | cons c t ih =>
    intro h1 h2
    cases t with
    | nil =>
      have hc := h2 c rfl
      simp [termScan, hc]
    | cons d r =>
      have h0 := h1 0 (by simp)
      rw [List.drop_zero] at h0
      have hterm : ¬(c = '\n' ∧ d = '[') := by
        rintro ⟨rfl, rfl⟩
        simp [nlBr, List.isPrefixOf] at h0
      rw [termScan_not_term _ hterm]
      rw [ih (fun j hj => by simpa using h1 (j + 1) (by simpa using hj))
        (fun e he => h2 e (by rw [getLast?_cons_of_ne_nil (by simp)]; exact he))]
      simp

theorem nlBr_beyond (u : List Char) (j : Nat) (h : u.length ≤ j) :
    nlBr.isPrefixOf (u.drop j) = false := by
  rw [List.drop_eq_nil_of_le h]
  simp [nlBr, List.isPrefixOf]

/-! ### Block processing pipeline lemmas -/

theorem tame_split_chars {b : List (List Char)} (ht : ∀ l ∈ b, tameLine l = true) :
    ∀ x ∈ b, x ≠ [] ∧ ∀ c ∈ x, c ≠ '\n' ∧ c ≠ '\r' := by
  intro x hx
  have props := tameLine_props (ht x hx)
  exact ⟨props.1, fun c hc =>
    ⟨plainChar_ne_nl (props.2.1 c hc), plainChar_ne_cr (props.2.1 c hc)⟩⟩

theorem pyStrip_serBlock {b : List (List Char)} (hb : b ≠ [])
    (ht : ∀ l ∈ b, tameLine l = true) : pyStrip (serBlock b) = serBlock b :=
  pyStrip_eq_self _ (serBlock_head_nonws hb ht) (serBlock_getLast_nonws hb ht)

theorem processBlock_serBlock {b : List (List Char)} (hb : b ≠ [])
    (ht : ∀ l ∈ b, tameLine l = true) :
    processBlock (serBlock b) = processLines b := by
  unfold processBlock
  rw [pyStrip_serBlock hb ht]
  cases b with
  | nil => exact absurd rfl hb
  | cons l b2 => rw [pySplitlines_serBlock l b2 (tame_split_chars ht)]

theorem wellFormed_shape {ls : List (List Char)} (h : wellFormedLines ls = true) :
    ∃ l0 l1 t2 ts st en, ls = l0 :: l1 :: t2 :: ts ∧ splitArrow (pyStrip l1) = [st, en] := by
  rcases ls with _ | ⟨l0, _ | ⟨l1, _ | ⟨t2, ts⟩⟩⟩
  · rw [show wellFormedLines [] = false from rfl] at h; cases h
  · rw [show wellFormedLines [l0] = false from rfl] at h; cases h
  · rw [show wellFormedLines [l0, l1] = false from rfl] at h; cases h
  · have hl : (splitArrow (pyStrip l1)).length = 2 := by
      have he : wellFormedLines (l0 :: l1 :: t2 :: ts)
          = ((splitArrow (pyStrip l1)).length == 2) := rfl
      rw [he] at h
      simpa using h
    obtain ⟨st, en, hse⟩ := List.length_eq_two.mp hl
    exact ⟨l0, l1, t2, ts, st, en, rfl, hse⟩

theorem malformed_processLines {ls : List (List Char)} (h : malformedLines ls = true) :
    processLines ls = some none := by
  rcases ls with _ | ⟨l0, _ | ⟨l1, _ | ⟨t2, ts⟩⟩⟩
  · rfl
  · rfl
  · rfl
  · have hna : containsArrow (pyStrip l1) = false := by
      have he : malformedLines (l0 :: l1 :: t2 :: ts) = !containsArrow (pyStrip l1) := rfl
      rw [he] at h
      simpa using h
    simp only [processLines]
    rw [if_neg (by simp [hna])]

theorem wellFormed_processLines {ls : List (List Char)} (h : wellFormedLines ls = true) :
    processLines ls = some (some (dialogueOf ls)) := by
  obtain ⟨l0, l1, t2, ts, st, en, rfl, hse⟩ := wellFormed_shape h
  have hca : containsArrow (pyStrip l1) = true := by
    refine (containsArrow_iff_parts _ []).mpr ?_
    rw [show splitArrowGo (pyStrip l1) [] = splitArrow (pyStrip l1) from rfl, hse]
    simp
  simp only [processLines]
  rw [if_pos hca, hse]
  simp only [dialogueOf]
  rw [hse]

theorem optMap_processBlock (bs : List (List (List Char)))
    (htame : ∀ b ∈ bs, b ≠ [] ∧ ∀ l ∈ b, tameLine l = true)
    (hstat : ∀ b ∈ bs, wellFormedLines b = true ∨ malformedLines b = true) :
    optMap processBlock (bs.map serBlock)
      = some (bs.map fun b => if wellFormedLines b = true then some (dialogueOf b) else none) := by
  induction bs with
  | nil => rfl
  | cons b bs2 ih =>
    have hb := htame b (by simp)
    have hpb : processBlock (serBlock b) = processLines b := processBlock_serBlock hb.1 hb.2
    have hpl : processLines b
        = some (if wellFormedLines b = true then some (dialogueOf b) else none) := by
      rcases hstat b (by simp) with hw | hm
      · rw [wellFormed_processLines hw, if_pos hw]
      · by_cases hw : wellFormedLines b = true
        · rw [wellFormed_processLines hw, if_pos hw]
        · rw [malformed_processLines hm, if_neg hw]
    rw [List.map_cons]
    simp only [optMap]
    rw [hpb, hpl, ih (fun x hx => htame x (by simp [hx])) (fun x hx => hstat x (by simp [hx]))]
    rfl

theorem filterMap_results (bs : List (List (List Char))) :
    ((bs.map fun b => if wellFormedLines b = true then some (dialogueOf b) else none).filterMap id)
      = (bs.filter wellFormedLines).map dialogueOf := by
  induction bs with
  | nil => rfl
  | cons b bs2 ih =>
    rw [List.map_cons, List.filter_cons]
    by_cases hw : wellFormedLines b = true
    · rw [if_pos hw, if_pos hw]
      simp [ih]
    · rw [if_neg hw, if_neg (by simpa using hw)]
      simp [ih]

theorem doc_strip (bs : List (List (List Char))) (hne : bs ≠ [])
    (htame : ∀ b ∈ bs, b ≠ [] ∧ ∀ l ∈ b, tameLine l = true) :
    pyStrip (joinWith ['\n', '\n'] (bs.map serBlock)) = joinWith ['\n', '\n'] (bs.map serBlock) := by
  apply pyStrip_eq_self
  · intro c hc
    obtain ⟨b, bs2, rfl⟩ : ∃ b bs2, bs = b :: bs2 := by
      cases hb : bs with
      | nil => exact absurd hb hne
      | cons b bs2 => exact ⟨b, bs2, rfl⟩
    have hb := htame b (by simp)
    rw [List.map_cons, joinWith_head? _ _ _ (serBlock_ne_nil hb.1 hb.2)] at hc
    exact serBlock_head_nonws hb.1 hb.2 c hc
  · intro c hc
    obtain ⟨x, hx⟩ : ∃ x, bs.getLast? = some x :=
      ⟨bs.getLast hne, List.getLast?_eq_getLast bs hne⟩
    have hxb := htame x (List.mem_of_getLast?_eq_some hx)
    have hmap : (bs.map serBlock).getLast? = some (serBlock x) := by
      rw [List.getLast?_map, hx]
      rfl
    rw [joinWith_getLast? _ _ (serBlock x) hmap (serBlock_ne_nil hxb.1 hxb.2)] at hc
    exact serBlock_getLast_nonws hxb.1 hxb.2 c hc

theorem convertCore_doc (bs : List (List (List Char))) (hne : bs ≠ [])
    (htame : ∀ b ∈ bs, b ≠ [] ∧ ∀ l ∈ b, tameLine l = true)
    (hstat : ∀ b ∈ bs, wellFormedLines b = true ∨ malformedLines b = true) :
    convertCore (joinWith ['\n', '\n'] (bs.map serBlock))
      = some (headerStr.data ++ joinWith ['\n'] ((bs.filter wellFormedLines).map dialogueOf)) := by
  unfold convertCore
  rw [doc_strip bs hne htame]
  obtain ⟨b, bs2, rfl⟩ : ∃ b bs2, bs = b :: bs2 := by
    cases hb : bs with
    | nil => exact absurd hb hne
    | cons b bs2 => exact ⟨b, bs2, rfl⟩
  have hsplit : pySplitBlocks (joinWith ['\n', '\n'] ((b :: bs2).map serBlock))
      = (b :: bs2).map serBlock := by
    unfold pySplitBlocks
    have hd := blocksGo_doc bs2 b [] (fun bb hbb => htame bb (by simpa using hbb))
    rw [hd]
    simp
  rw [hsplit, optMap_processBlock _ htame hstat]
  rw [Option.map_some']
  rw [filterMap_results]

/-! ### Character facts about rendered dialogue lines -/

theorem mem_pyStrip_mem {c : Char} {x : List Char} (h : c ∈ pyStrip x) : c ∈ x := by
  unfold pyStrip at h
  rw [List.mem_reverse] at h
  have h2 := mem_dropWhile_mem h
  rw [List.mem_reverse] at h2
  exact mem_dropWhile_mem h2

theorem natDigitsAux_chars : ∀ (fuel n : Nat) (acc : List Char) (c : Char),
    c ∈ natDigitsAux fuel n acc → (∃ d, d < 10 ∧ c = digitChar d) ∨ c ∈ acc := by
  intro fuel
  induction fuel with
  | zero => intro n acc c h; exact Or.inr h
  | succ f ih =>
    intro n acc c h
    by_cases hn : n < 10
    · rw [natDigitsAux_small hn _ _ (by omega)] at h
      rcases List.mem_cons.mp h with h | h
      · exact Or.inl ⟨n, hn, h⟩
      · exact Or.inr h
    · rw [natDigitsAux_step (by omega)] at h
      rcases ih _ _ c h with h | h
      · exact Or.inl h
      · rcases List.mem_cons.mp h with h | h
        · exact Or.inl ⟨n % 10, by omega, h⟩
        · exact Or.inr h

theorem natDigits_chars {n : Nat} {c : Char} (h : c ∈ natDigits n) :
    ∃ d, d < 10 ∧ c = digitChar d := by
  rcases natDigitsAux_chars _ _ _ _ h with h | h
  · exact h
  · simp at h

theorem pad2_chars {n : Nat} {c : Char} (h : c ∈ pad2 n) : ∃ d, d < 10 ∧ c = digitChar d := by
  unfold pad2 at h
  by_cases hn : n < 10
  · rw [if_pos hn] at h
    rcases List.mem_cons.mp h with h | h
    · exact ⟨0, by omega, h⟩
    · exact natDigits_chars h
  · rw [if_neg hn] at h
    exact natDigits_chars h

theorem digitChar_tame : ∀ d, d < 10 → digitChar d ≠ '\n' ∧ digitChar d ≠ '\r' := by decide

theorem srtTimeCore_chars {u : List Char} :
    ∀ c ∈ srtTimeCore u,
      c ∈ u ∨ (∃ d, d < 10 ∧ c = digitChar d) ∨ c = ':' ∨ c = '.' := by
  intro c hc
  rcases u with _ | ⟨a, _ | ⟨b2, _ | ⟨c1, _ | ⟨m1, _ | ⟨m2, _ | ⟨c2, _ | ⟨s1, _ | ⟨s2, _ |
    ⟨c3, _ | ⟨g, _ | ⟨h8, _ | ⟨i9, rest⟩⟩⟩⟩⟩⟩⟩⟩⟩⟩⟩⟩
  case nil => exact Or.inl hc
  case cons.nil => exact Or.inl hc
  case cons.cons.nil => exact Or.inl hc
  case cons.cons.cons.nil => exact Or.inl hc
  case cons.cons.cons.cons.nil => exact Or.inl hc
  case cons.cons.cons.cons.cons.nil => exact Or.inl hc
  case cons.cons.cons.cons.cons.cons.nil => exact Or.inl hc
  case cons.cons.cons.cons.cons.cons.cons.nil => exact Or.inl hc
  case cons.cons.cons.cons.cons.cons.cons.cons.nil => exact Or.inl hc
  case cons.cons.cons.cons.cons.cons.cons.cons.cons.nil => exact Or.inl hc
  case cons.cons.cons.cons.cons.cons.cons.cons.cons.cons.nil => exact Or.inl hc
  case cons.cons.cons.cons.cons.cons.cons.cons.cons.cons.cons.nil => exact Or.inl hc
  case cons.cons.cons.cons.cons.cons.cons.cons.cons.cons.cons.cons =>
    by_cases hg : (a.isDigit && b2.isDigit && (c1 == ':') && m1.isDigit && m2.isDigit &&
        (c2 == ':') && s1.isDigit && s2.isDigit && (c3 == ',') &&
        g.isDigit && h8.isDigit && i9.isDigit) = true
    · have hc2 : c ∈ (if (a.isDigit && b2.isDigit && (c1 == ':') && m1.isDigit && m2.isDigit &&
          (c2 == ':') && s1.isDigit && s2.isDigit && (c3 == ',') &&
          g.isDigit && h8.isDigit && i9.isDigit) = true then
            natDigits (10 * digitVal a + digitVal b2) ++
              ':' :: (pad2 (10 * digitVal m1 + digitVal m2) ++
                ':' :: (pad2 (10 * digitVal s1 + digitVal s2) ++
                  '.' :: pad2 ((100 * digitVal g + 10 * digitVal h8 + digitVal i9) / 10)))
          else a :: b2 :: c1 :: m1 :: m2 :: c2 :: s1 :: s2 :: c3 :: g :: h8 :: i9 :: rest) := hc
      rw [if_pos hg] at hc2
      simp only [List.mem_append, List.mem_cons] at hc2
      rcases hc2 with h | h
      · exact Or.inr (Or.inl (natDigits_chars h))
      · rcases h with h | h
        · exact Or.inr (Or.inr (Or.inl h))
        · rcases h with h | h
          · exact Or.inr (Or.inl (pad2_chars h))
          · rcases h with h | h
            · exact Or.inr (Or.inr (Or.inl h))
            · rcases h with h | h
              · exact Or.inr (Or.inl (pad2_chars h))
              · rcases h with h | h
                · exact Or.inr (Or.inr (Or.inr h))
                · exact Or.inr (Or.inl (pad2_chars h))
    · have hc2 : c ∈ (if (a.isDigit && b2.isDigit && (c1 == ':') && m1.isDigit && m2.isDigit &&
          (c2 == ':') && s1.isDigit && s2.isDigit && (c3 == ',') &&
          g.isDigit && h8.isDigit && i9.isDigit) = true then
            natDigits (10 * digitVal a + digitVal b2) ++
              ':' :: (pad2 (10 * digitVal m1 + digitVal m2) ++
                ':' :: (pad2 (10 * digitVal s1 + digitVal s2) ++
                  '.' :: pad2 ((100 * digitVal g + 10 * digitVal h8 + digitVal i9) / 10)))
          else a :: b2 :: c1 :: m1 :: m2 :: c2 :: s1 :: s2 :: c3 :: g :: h8 :: i9 :: rest) := hc
      rw [if_neg hg] at hc2
      exact Or.inl hc2

theorem joinWith_mem {sep : List Char} : ∀ {xs : List (List Char)} {c : Char},
    c ∈ joinWith sep xs → c ∈ sep ∨ ∃ x ∈ xs, c ∈ x := by
  intro xs
  induction xs with
  | nil => intro c h; simp [joinWith] at h
  | cons x xs2 ih =>
    intro c h
    cases xs2 with
    | nil => exact Or.inr ⟨x, by simp, h⟩
    | cons y ys =>
      simp only [joinWith] at h
      rcases List.mem_append.mp h with h | h
      · rcases List.mem_append.mp h with h | h
        · exact Or.inr ⟨x, by simp, h⟩
        · exact Or.inl h
      · rcases ih h with h | h
        · exact Or.inl h
        · obtain ⟨z, hz, hcz⟩ := h
          exact Or.inr ⟨z, List.mem_cons_of_mem _ hz, hcz⟩

theorem mem_of_splitArrow {t x : List Char} {c : Char}
    (hx : x ∈ splitArrow t) (hc : c ∈ x) : c ∈ t := by
  have hres := splitArrowGo_subset t.length t le_rfl [] x hx c hc
  rcases hres with h | h
  · exact h
  · simp at h

theorem dialogueOf_eq {l0 l1 t2 : List Char} {ts : List (List Char)} {st en : List Char}
    (hse : splitArrow (pyStrip l1) = [st, en]) :
    dialogueOf (l0 :: l1 :: t2 :: ts)
      = "Dialogue: 0,".data ++ srtTimeCore (pyStrip st) ++
          ',' :: (srtTimeCore (pyStrip en) ++
            (",Default,,0,0,0,,".data ++ joinWith ['\\', 'N'] (t2 :: ts))) := by
  simp only [dialogueOf]
  rw [hse]

theorem dialogue_prefix_chars : ∀ c ∈ "Dialogue: 0,".data, c ≠ '\n' ∧ c ≠ '\r' := by decide

theorem dialogue_style_chars : ∀ c ∈ ",Default,,0,0,0,,".data, c ≠ '\n' ∧ c ≠ '\r' := by decide

theorem dialogueOf_chars {ls : List (List Char)} (hw : wellFormedLines ls = true)
    (ht : ∀ l ∈ ls, tameLine l = true) :
    ∀ c ∈ dialogueOf ls, c ≠ '\n' ∧ c ≠ '\r' := by
  obtain ⟨l0, l1, t2, ts, st, en, rfl, hse⟩ := wellFormed_shape hw
  intro c hc
  rw [dialogueOf_eq hse] at hc
  have hl1 : ∀ x ∈ l1, plainChar x = true := (tameLine_props (ht l1 (by simp))).2.1
  have hmem_st : ∀ x ∈ pyStrip st, plainChar x = true := by
    intro x hx
    refine hl1 x (mem_pyStrip_mem (mem_of_splitArrow ?_ (mem_pyStrip_mem hx)))
    rw [hse]; simp
  have hmem_en : ∀ x ∈ pyStrip en, plainChar x = true := by
    intro x hx
    refine hl1 x (mem_pyStrip_mem (mem_of_splitArrow ?_ (mem_pyStrip_mem hx)))
    rw [hse]; simp
  have hsrt : ∀ (u : List Char), (∀ x ∈ u, plainChar x = true) →
      ∀ x ∈ srtTimeCore u, x ≠ '\n' ∧ x ≠ '\r' := by
    intro u hu x hx
    rcases srtTimeCore_chars x hx with h | h | h | h
    · exact ⟨plainChar_ne_nl (hu x h), plainChar_ne_cr (hu x h)⟩
    · obtain ⟨d, hd, rfl⟩ := h
      exact digitChar_tame d hd
    · subst h; exact ⟨by decide, by decide⟩
    · subst h; exact ⟨by decide, by decide⟩
  rcases List.mem_append.mp hc with h | h
  · rcases List.mem_append.mp h with h | h
    · exact dialogue_prefix_chars c h
    · exact hsrt _ hmem_st c h
  · rcases List.mem_cons.mp h with h | h
    · subst h; exact ⟨by decide, by decide⟩
    · rcases List.mem_append.mp h with h | h
      · exact hsrt _ hmem_en c h
      · rcases List.mem_append.mp h with h | h
        · exact dialogue_style_chars c h
        · rcases joinWith_mem h with h | h
          · rcases List.mem_cons.mp h with h | h
            · subst h; exact ⟨by decide, by decide⟩
            · simp at h; subst h; exact ⟨by decide, by decide⟩
          · obtain ⟨z, hz, hcz⟩ := h
            have hzt := (tameLine_props (ht z (by simp at hz ⊢; tauto))).2.1
            exact ⟨plainChar_ne_nl (hzt c hcz), plainChar_ne_cr (hzt c hcz)⟩

theorem dialogueOf_isDialogue {ls : List (List Char)} (hw : wellFormedLines ls = true) :
    ("Dialogue:".data).isPrefixOf (dialogueOf ls) = true := by
  obtain ⟨l0, l1, t2, ts, st, en, rfl, hse⟩ := wellFormed_shape hw
  rw [dialogueOf_eq hse]
  have he : ("Dialogue: 0,".data : List Char) = "Dialogue:".data ++ " 0,".data := rfl
  rw [he, List.append_assoc, List.append_assoc]
  exact isPrefixOf_self_append _ _

theorem dialogueOf_ne_nil {ls : List (List Char)} (hw : wellFormedLines ls = true) :
    dialogueOf ls ≠ [] := by
  obtain ⟨l0, l1, t2, ts, st, en, rfl, hse⟩ := wellFormed_shape hw
  rw [dialogueOf_eq hse]
  simp

/-! ### Lines of the produced document -/

set_option maxRecDepth 40000 in
theorem headerStr_eq_nlJoin : headerStr.data = nlJoinAll headerLines := by decide

set_option maxRecDepth 40000 in
theorem headerLines_chars : ∀ l ∈ headerLines, ∀ c ∈ l, c ≠ '\n' ∧ c ≠ '\r' := by decide

set_option maxRecDepth 40000 in
theorem headerLines_no_dialogue :
    ∀ l ∈ headerLines, ("Dialogue:".data).isPrefixOf l = false := by decide

theorem pySplitlines_output (ds : List (List Char))
    (hds : ∀ d ∈ ds, d ≠ [] ∧ ∀ c ∈ d, c ≠ '\n' ∧ c ≠ '\r') :
    pySplitlines (headerStr.data ++ joinWith ['\n'] ds) = headerLines ++ ds := by
  unfold pySplitlines
  rw [headerStr_eq_nlJoin, linesGo_nlJoin headerLines _ headerLines_chars]
  cases ds with
  | nil => rfl
  | cons d ds2 =>
    have hx := linesGo_serBlock d ds2 [] hds
    rw [serBlock] at hx
    rw [hx]
    simp

theorem dialogueLines_output (ds : List (List Char))
    (hds : ∀ d ∈ ds, d ≠ [] ∧ ∀ c ∈ d, c ≠ '\n' ∧ c ≠ '\r')
    (hpref : ∀ d ∈ ds, ("Dialogue:".data).isPrefixOf d = true) :
    dialogueLines ⟨headerStr.data ++ joinWith ['\n'] ds⟩ = ds.map (fun d => (⟨d⟩ : String)) := by
  unfold dialogueLines
  have hdata : (String.mk (headerStr.data ++ joinWith ['\n'] ds)).data
      = headerStr.data ++ joinWith ['\n'] ds := rfl
  rw [hdata, pySplitlines_output ds hds, List.filter_append]
  have h1 : headerLines.filter (fun l => ("Dialogue:".data).isPrefixOf l) = [] := by
    rw [List.filter_eq_nil_iff]
    intro a ha
    simp [headerLines_no_dialogue a ha]
  have h2 : ds.filter (fun l => ("Dialogue:".data).isPrefixOf l) = ds :=
    List.filter_eq_self.mpr hpref
  rw [h1, h2, List.nil_append]

/-! ### `update_ass_styles` core lemmas -/

theorem drop_eq_of_append {a X : List Char} {n : Nat} (h : n = a.length) :
    (a ++ X).drop n = X := by
  subst h
  exact drop_append_self a X

theorem take_eq_of_append {a X : List Char} {n : Nat} (h : n = a.length) :
    (a ++ X).take n = a := by
  subst h
  exact take_append_self a X

theorem update_core_replace (si sb R : List Char)
    (h1 : ∀ j, j < si.length + 1 →
      stylesPat.isPrefixOf ((si ++ '\n' :: (stylesPat ++ (sb ++ '\n' :: '[' :: R))).drop j) = false)
    (h2 : ∀ j, j < sb.length → nlBr.isPrefixOf ((sb ++ '\n' :: '[' :: R).drop j) = false) :
    update_ass_core (si ++ '\n' :: (stylesPat ++ (sb ++ '\n' :: '[' :: R)))
      = si ++ '\n' :: (ourStyleHeaderStr.data ++ '\n' :: '[' :: R) := by
  have e1 : si ++ '\n' :: (stylesPat ++ (sb ++ '\n' :: '[' :: R))
      = (si ++ ['\n']) ++ (stylesPat ++ (sb ++ '\n' :: '[' :: R)) := by simp
  have e2 : si ++ '\n' :: (stylesPat ++ (sb ++ '\n' :: '[' :: R))
      = ((si ++ ['\n']) ++ stylesPat ++ sb) ++ '\n' :: '[' :: R := by simp
  have hfind : findPatAux stylesPat (si ++ '\n' :: (stylesPat ++ (sb ++ '\n' :: '[' :: R)))
      = some (si.length + 1) := by
    refine findPatAux_some stylesPat (by simp [stylesPat]) _ _ ?_ h1
    rw [e1, drop_eq_of_append (by simp)]
    exact isPrefixOf_self_append _ _
  have hdrop12 : (si ++ '\n' :: (stylesPat ++ (sb ++ '\n' :: '[' :: R))).drop
      (si.length + 1 + stylesPat.length) = sb ++ '\n' :: '[' :: R := by
    have e3 : si ++ '\n' :: (stylesPat ++ (sb ++ '\n' :: '[' :: R))
        = ((si ++ ['\n']) ++ stylesPat) ++ (sb ++ '\n' :: '[' :: R) := by simp
    rw [e3, drop_eq_of_append (by simp only [List.length_append, List.length_cons, List.length_nil])]
  have hterm : termScan ((si ++ '\n' :: (stylesPat ++ (sb ++ '\n' :: '[' :: R))).drop
      (si.length + 1 + stylesPat.length)) = sb.length := by
    rw [hdrop12]
    refine termScan_finds _ sb.length ?_ h2
    rw [drop_eq_of_append rfl]
    simp [nlBr, List.isPrefixOf]
  unfold update_ass_core
  rw [hfind]
  simp only []
  rw [hterm]
  have htake : (si ++ '\n' :: (stylesPat ++ (sb ++ '\n' :: '[' :: R))).take (si.length + 1)
      = si ++ ['\n'] := by
    rw [e1, take_eq_of_append (by simp)]
  have hdropP : (si ++ '\n' :: (stylesPat ++ (sb ++ '\n' :: '[' :: R))).drop
      (si.length + 1 + stylesPat.length + sb.length) = '\n' :: '[' :: R := by
    rw [e2, drop_eq_of_append (by simp only [List.length_append, List.length_cons, List.length_nil])]
  rw [htake, hdropP]
  simp

theorem update_core_insert (body R : List Char)
    (h1 : ∀ j, j < (scriptInfoPat ++ (body ++ '\n' :: '[' :: R)).length →
      stylesPat.isPrefixOf ((scriptInfoPat ++ (body ++ '\n' :: '[' :: R)).drop j) = false)
    (h2 : ∀ j, j < body.length → nlBr.isPrefixOf ((body ++ '\n' :: '[' :: R).drop j) = false) :
    update_ass_core (scriptInfoPat ++ (body ++ '\n' :: '[' :: R))
      = scriptInfoPat ++ (body ++ '\n' :: (ourStyleHeaderStr.data ++ '\n' :: '[' :: R)) := by
  have hnone : findPatAux stylesPat (scriptInfoPat ++ (body ++ '\n' :: '[' :: R)) = none :=
    findPatAux_none stylesPat (by simp [stylesPat]) _ h1
  have hfind : findPatAux scriptInfoPat (scriptInfoPat ++ (body ++ '\n' :: '[' :: R))
      = some 0 := by
    refine findPatAux_some scriptInfoPat (by simp [scriptInfoPat]) _ 0 ?_ (by omega)
    rw [List.drop_zero]
    exact isPrefixOf_self_append _ _
  have hdrop13 : (scriptInfoPat ++ (body ++ '\n' :: '[' :: R)).drop (0 + scriptInfoPat.length)
      = body ++ '\n' :: '[' :: R := by
    rw [drop_eq_of_append (by omega)]
  have hterm : termScan ((scriptInfoPat ++ (body ++ '\n' :: '[' :: R)).drop
      (0 + scriptInfoPat.length)) = body.length := by
    rw [hdrop13]
    refine termScan_finds _ body.length ?_ h2
    rw [drop_eq_of_append rfl]
    simp [nlBr, List.isPrefixOf]
  unfold update_ass_core
  rw [hnone]
  simp only []
  rw [hfind]
  simp only []
  rw [hterm]
  have hsplit : scriptInfoPat ++ (body ++ '\n' :: '[' :: R)
      = (scriptInfoPat ++ body) ++ '\n' :: '[' :: R := by simp
  have htake : (scriptInfoPat ++ (body ++ '\n' :: '[' :: R)).take
      (0 + scriptInfoPat.length + body.length) = scriptInfoPat ++ body := by
    rw [hsplit, take_eq_of_append (by simp only [List.length_append, List.length_cons, List.length_nil]; omega)]
  have hdropP : (scriptInfoPat ++ (body ++ '\n' :: '[' :: R)).drop
      (0 + scriptInfoPat.length + body.length) = '\n' :: '[' :: R := by
    rw [hsplit, drop_eq_of_append (by simp only [List.length_append, List.length_cons, List.length_nil]; omega)]
  rw [htake, hdropP]
  simp

theorem update_core_insert_end (body : List Char)
    (h1 : ∀ j, j < (scriptInfoPat ++ body).length →
      stylesPat.isPrefixOf ((scriptInfoPat ++ body).drop j) = false)
    (h2 : ∀ j, j < body.length → nlBr.isPrefixOf (body.drop j) = false)
    (h3 : ∀ e, body.getLast? = some e → e ≠ '\n') :
    update_ass_core (scriptInfoPat ++ body)
      = (scriptInfoPat ++ body) ++ '\n' :: ourStyleHeaderStr.data := by
  have hnone : findPatAux stylesPat (scriptInfoPat ++ body) = none :=
    findPatAux_none stylesPat (by simp [stylesPat]) _ h1
  have hfind : findPatAux scriptInfoPat (scriptInfoPat ++ body) = some 0 := by
    refine findPatAux_some scriptInfoPat (by simp [scriptInfoPat]) _ 0 ?_ (by omega)
    rw [List.drop_zero]
    exact isPrefixOf_self_append _ _
  have hdrop13 : (scriptInfoPat ++ body).drop (0 + scriptInfoPat.length) = body := by
    rw [drop_eq_of_append (by omega)]
  have hterm : termScan ((scriptInfoPat ++ body).drop (0 + scriptInfoPat.length))
      = body.length := by
    rw [hdrop13]
    exact termScan_no_term body h2 h3
  unfold update_ass_core
  rw [hnone]
  simp only []
  rw [hfind]
  simp only []
  rw [hterm]
  have htake : (scriptInfoPat ++ body).take (0 + scriptInfoPat.length + body.length)
      = scriptInfoPat ++ body := by
    have : scriptInfoPat ++ body = (scriptInfoPat ++ body) ++ [] := by simp
    rw [this, take_eq_of_append (by simp only [List.length_append, List.length_cons, List.length_nil]; omega)]
    simp
  have hdropP : (scriptInfoPat ++ body).drop (0 + scriptInfoPat.length + body.length) = [] := by
    apply List.drop_eq_nil_of_le
    simp
  rw [htake, hdropP]
  simp

/-! ### Exception propagation lemmas -/

theorem processBlock_none_iff {b : List Char} :
    processBlock b = none ↔ blockRaises b = true := by
  unfold processBlock blockRaises
  rcases hls : pySplitlines (pyStrip b) with _ | ⟨l0, _ | ⟨l1, _ | ⟨t2, ts⟩⟩⟩
  · simp [processLines]
  · simp [processLines]
  · simp [processLines]
  · by_cases hca : containsArrow (pyStrip l1) = true
    · rcases hsp : splitArrow (pyStrip l1) with _ | ⟨x, _ | ⟨y, _ | ⟨z, w⟩⟩⟩
      · simp [processLines, hca, hsp]
      · simp [processLines, hca, hsp]
      · simp [processLines, hca, hsp]
      · simp [processLines, hca, hsp]
    · have hca2 : containsArrow (pyStrip l1) = false := by simpa using hca
      simp [processLines, hca2]

theorem optMap_isSome_iff : ∀ (bs : List (List Char)),
    (optMap processBlock bs).isSome = true ↔ ∀ b ∈ bs, blockRaises b = false := by
  intro bs
  induction bs with
  | nil => simp [optMap]
  | cons b bs2 ih =>
    simp only [optMap]
    cases hb : processBlock b with
    | none =>
      constructor
      · intro h; simp at h
      · intro h
        have hr := h b (by simp)
        rw [processBlock_none_iff.mp hb] at hr
        cases hr
    | some v =>
      have hbr : blockRaises b = false := by
        by_cases hx : blockRaises b = true
        · rw [← processBlock_none_iff, hb] at hx; cases hx
        · simpa using hx
      cases hv : optMap processBlock bs2 with
      | none =>
        rw [hv] at ih
        simp at ih
        obtain ⟨b2, hb2, hbr2⟩ := ih
        constructor
        · intro h; simp at h
        · intro h
          have := h b2 (by simp [hb2])
          rw [this] at hbr2
          cases hbr2
      | some bs3 =>
        rw [hv] at ih
        simp at ih ⊢
        exact ⟨hbr, ih⟩

theorem optMap_all_skip : ∀ (bs : List (List Char)),
    (∀ b ∈ bs, processBlock b = some none) →
    optMap processBlock bs = some (bs.map fun _ => (none : Option (List Char))) := by
  intro bs
  induction bs with
  | nil => intro _; rfl
  | cons b bs2 ih =>
    intro h
    simp only [optMap]
    rw [h b (by simp), ih (fun x hx => h x (by simp [hx]))]
    rfl

theorem filterMap_id_none (bs : List (List Char)) :
    ((bs.map fun _ => (none : Option (List Char))).filterMap id) = [] := by
  induction bs with
  | nil => rfl
  | cons b bs2 ih => simp [ih]

/-! ### Claim theorems -/

set_option maxRecDepth 100000 in
/-- C1, counterexample: `convert_srt_to_ass` does *not* return normally on
every input.  On this input the single block has three lines and its time
line contains `" --> "` twice, so `time_line.split(" --> ")` yields three
parts and the unpacking `start_str, end_str = ...` raises `ValueError`
(modelled by `none`).  The block is not skipped and the function does not
return. -/
theorem convert_raises_on_double_sep :
    convert_srt_to_ass "1\n00:00:01,000 --> 00:00:02,000 --> 00:00:03,000\nHi" = none := by
  decide

/-- C1, amended: `convert_srt_to_ass` returns normally if and only if no
block of the input (at least three lines after stripping and splitting,
with a stripped time line that contains `" --> "` but does not split into
exactly two parts) raises `ValueError`.  Malformed blocks (fewer than
three lines, or no separator at all) are skipped and processing
continues. -/
theorem convert_srt_to_ass_total_iff (s : String) :
    (convert_srt_to_ass s).isSome = true
      ↔ ∀ b ∈ pySplitBlocks (pyStrip s.data), blockRaises b = false := by
  unfold convert_srt_to_ass convertCore
  rw [Option.isSome_map', Option.isSome_map']
  exact optMap_isSome_iff _

/-- C3: an input string that does not match the timecode pattern (two
digits, colon, two digits, colon, two digits, comma, three digits, as a
prefix — the semantics of `re.match`) is returned by `srt_time_to_ass`
unchanged. -/
theorem srt_time_fallback (s : String) (h : srtMatches s.data = false) :
    srt_time_to_ass s = s := by
  unfold srt_time_to_ass
  rw [srtTimeCore_no_match h]

/-- Witness for C3 at the concrete input `"bad-time"`. -/
theorem srt_time_fallback_witness :
    srtMatches "bad-time".data = false ∧ srt_time_to_ass "bad-time" = "bad-time" :=
  ⟨by decide, srt_time_fallback "bad-time" (by decide)⟩

/-- C5: for every valid SRT timecode (hours, minutes, seconds below 100,
milliseconds below 1000), the centisecond field of the output of
`srt_time_to_ass` is `ms / 10` — integer division, truncating, never
rounding up — as exhibited by the `pad2 (ms / 10)` field of
`assFmtChars`. -/
theorem srt_time_truncates (hh mm ss ms : Nat) (h1 : hh < 100) (h2 : mm < 100)
    (h3 : ss < 100) (h4 : ms < 1000) :
    srt_time_to_ass ⟨srtFmtChars hh mm ss ms⟩ = ⟨assFmtChars hh mm ss (ms / 10)⟩ := by
  unfold srt_time_to_ass
  have hd : (String.mk (srtFmtChars hh mm ss ms)).data = srtFmtChars hh mm ss ms := rfl
  rw [hd, srtTimeCore_format h1 h2 h3 h4]

/-- Witness for C5 at the two example inputs of the claim:
`"00:00:05,009"` yields `"0:00:05.00"` and `"00:01:02,999"` yields
`"0:01:02.99"`. -/
theorem srt_time_truncates_witness :
    srt_time_to_ass "00:00:05,009" = "0:00:05.00"
      ∧ srt_time_to_ass "00:01:02,999" = "0:01:02.99" := by
  constructor
  · have h := srt_time_truncates 0 0 5 9 (by omega) (by omega) (by omega) (by omega)
    have e1 : ("00:00:05,009" : String) = ⟨srtFmtChars 0 0 5 9⟩ := by decide
    have e2 : ("0:00:05.00" : String) = ⟨assFmtChars 0 0 5 (9 / 10)⟩ := by decide
    rw [e1, e2]
    exact h
  · have h := srt_time_truncates 0 1 2 999 (by omega) (by omega) (by omega) (by omega)
    have e1 : ("00:01:02,999" : String) = ⟨srtFmtChars 0 1 2 999⟩ := by decide
    have e2 : ("0:01:02.99" : String) = ⟨assFmtChars 0 1 2 (999 / 10)⟩ := by decide
    rw [e1, e2]
    exact h

set_option maxRecDepth 100000 in
/-- C9, counterexample: text lines are *not* individually trimmed.  The
interior text line `"  Hello  "` keeps its leading and trailing blanks in
the emitted dialogue text (the claim would require it to contribute
`"Hello"`). -/
theorem convert_keeps_line_whitespace :
    convert_srt_to_ass "1\n00:00:01,000 --> 00:00:02,000\n  Hello  \nworld"
      = some (headerStr
          ++ "Dialogue: 0,0:00:01.00,0:00:02.00,Default,,0,0,0,,  Hello  \\Nworld") := by
  decide

/-- C9, amended: a block is only stripped as a whole and split into lines
(`block.strip().splitlines()`); the individual text lines (index 2 and
onward) are joined into the dialogue text exactly as they are, without
any per-line trimming, so interior leading and trailing whitespace
survives.  Only the time line is stripped. -/
theorem processBlock_joins_untrimmed (b l0 l1 t2 : List Char) (ts : List (List Char))
    (st en : List Char)
    (hls : pySplitlines (pyStrip b) = l0 :: l1 :: t2 :: ts)
    (hse : splitArrow (pyStrip l1) = [st, en]) :
    processBlock b = some (some ("Dialogue: 0,".data ++ srtTimeCore (pyStrip st) ++
      ',' :: (srtTimeCore (pyStrip en) ++
        (",Default,,0,0,0,,".data ++ joinWith ['\\', 'N'] (t2 :: ts))))) := by
  unfold processBlock
  rw [hls]
  have hca : containsArrow (pyStrip l1) = true := by
    refine (containsArrow_iff_parts _ []).mpr ?_
    rw [show splitArrowGo (pyStrip l1) [] = splitArrow (pyStrip l1) from rfl, hse]
    simp
  simp only [processLines]
  rw [if_pos hca, hse]

set_option maxRecDepth 100000 in
/-- Witness for C9's amended statement: the block with interior text line
`"  Hello  "` produces the dialogue text `"  Hello  \Nworld"` with the
whitespace intact. -/
theorem processBlock_joins_untrimmed_witness :
    processBlock "1\n00:00:01,000 --> 00:00:02,000\n  Hello  \nworld".data
      = some (some ("Dialogue: 0,".data ++ srtTimeCore (pyStrip "00:00:01,000".data) ++
        ',' :: (srtTimeCore (pyStrip "00:00:02,000".data) ++
          (",Default,,0,0,0,,".data ++
            joinWith ['\\', 'N'] ["  Hello  ".data, "world".data])))) :=
  processBlock_joins_untrimmed _ "1".data "00:00:01,000 --> 00:00:02,000".data
    "  Hello  ".data ["world".data] "00:00:01,000".data "00:00:02,000".data
    (by decide) (by decide)

/-- C10: when every block of the input is skipped (fewer than three lines
or no separator in the time line) — in particular for the empty string, a
whitespace-only string, or a document whose every block is malformed —
`convert_srt_to_ass` still returns successfully and its output is exactly
the fixed header with zero dialogue lines. -/
theorem convert_no_cues (s : String)
    (h : ∀ b ∈ pySplitBlocks (pyStrip s.data),
      malformedLines (pySplitlines (pyStrip b)) = true) :
    convert_srt_to_ass s = some headerStr := by
  unfold convert_srt_to_ass convertCore
  have hall : ∀ b ∈ pySplitBlocks (pyStrip s.data), processBlock b = some none := by
    intro b hb
    unfold processBlock
    exact malformed_processLines (h b hb)
  rw [optMap_all_skip _ hall]
  simp only [Option.map_some']
  rw [filterMap_id_none]
  show some (String.mk (headerStr.data ++ [])) = some headerStr
  rw [List.append_nil, strMk_data]

/-- Witness for C10 at the empty input. -/
theorem convert_no_cues_witness :
    convert_srt_to_ass "" = some headerStr :=
  convert_no_cues "" (by decide)

set_option maxRecDepth 200000 in
/-- C2: for an ASS document of the standard shape — a `[Script Info]`
part, then a `[V4+ Styles]` section with arbitrary style lines, then the
`[Events]` section — where the styles header token does not occur before
the styles section and no `"\n["` occurs inside the styles body,
`update_ass_styles` keeps the `[Script Info]` part and the whole
`[Events]` section byte-for-byte and replaces the styles section by
exactly the configured `Format:` and `Style:` lines
(`ourStyleHeaderStr`). -/
theorem update_ass_styles_replaces (si sb ev : String)
    (h1 : ∀ j, j < si.data.length + 1 →
      stylesPat.isPrefixOf
        ((si ++ "\n[V4+ Styles]" ++ sb ++ "\n[Events]" ++ ev).data.drop j) = false)
    (h2 : ∀ j, j < sb.data.length →
      nlBr.isPrefixOf ((sb ++ "\n[Events]" ++ ev).data.drop j) = false) :
    update_ass_styles (si ++ "\n[V4+ Styles]" ++ sb ++ "\n[Events]" ++ ev)
      = si ++ "\n" ++ ourStyleHeaderStr ++ "\n[Events]" ++ ev := by
  have hdata : (si ++ "\n[V4+ Styles]" ++ sb ++ "\n[Events]" ++ ev).data
      = si.data ++ '\n' :: (stylesPat ++ (sb.data ++ '\n' :: '[' ::
          ("Events]".data ++ ev.data))) := by
    simp only [strData_append, List.append_assoc]
    rfl
  have hdata2 : (sb ++ "\n[Events]" ++ ev).data
      = sb.data ++ '\n' :: '[' :: ("Events]".data ++ ev.data) := by
    simp only [strData_append, List.append_assoc]
    rfl
  simp only [hdata] at h1
  simp only [hdata2] at h2
  unfold update_ass_styles
  rw [hdata, update_core_replace si.data sb.data ("Events]".data ++ ev.data) h1 h2]
  rw [← strMk_data (si ++ "\n" ++ ourStyleHeaderStr ++ "\n[Events]" ++ ev)]
  apply congrArg String.mk
  simp only [strData_append, List.append_assoc]
  rfl

set_option maxRecDepth 200000 in
/-- Witness for C2 on a concrete three-section document. -/
theorem update_ass_styles_replaces_witness :
    update_ass_styles ("[Script Info]\nTitle: T" ++ "\n[V4+ Styles]"
        ++ "\nFormat: Name\nStyle: Old,X" ++ "\n[Events]" ++ "\nDialogue: x")
      = "[Script Info]\nTitle: T" ++ "\n" ++ ourStyleHeaderStr ++ "\n[Events]"
        ++ "\nDialogue: x" :=
  update_ass_styles_replaces "[Script Info]\nTitle: T" "\nFormat: Name\nStyle: Old,X"
    "\nDialogue: x" (by decide) (by decide)

set_option maxRecDepth 200000 in
/-- C6: an ASS document with no `[V4+ Styles]` section but with a
`[Script Info]` section gets the configured style block inserted directly
after the `[Script Info]` content.  First conjunct: before the next
`"["`-prefixed line, the rest of the document unchanged.  Second
conjunct: at document end when there is no following section (and the
document does not end in a newline, where `$` would match one character
earlier). -/
theorem update_ass_styles_inserts :
    (∀ body rest : String,
      (∀ j, j < ("[Script Info]" ++ body ++ "\n[" ++ rest).data.length →
        stylesPat.isPrefixOf (("[Script Info]" ++ body ++ "\n[" ++ rest).data.drop j)
          = false) →
      (∀ j, j < body.data.length →
        nlBr.isPrefixOf ((body ++ "\n[" ++ rest).data.drop j) = false) →
      update_ass_styles ("[Script Info]" ++ body ++ "\n[" ++ rest)
        = "[Script Info]" ++ body ++ "\n" ++ ourStyleHeaderStr ++ "\n[" ++ rest) ∧
    (∀ body : String,
      (∀ j, j < ("[Script Info]" ++ body).data.length →
        stylesPat.isPrefixOf (("[Script Info]" ++ body).data.drop j) = false) →
      (∀ j, j < body.data.length → nlBr.isPrefixOf (body.data.drop j) = false) →
      body.data.getLast? ≠ some '\n' →
      update_ass_styles ("[Script Info]" ++ body)
        = "[Script Info]" ++ body ++ "\n" ++ ourStyleHeaderStr) := by
  constructor
  · intro body rest h1 h2
    have hdata : ("[Script Info]" ++ body ++ "\n[" ++ rest).data
        = scriptInfoPat ++ (body.data ++ '\n' :: '[' :: rest.data) := by
      simp only [strData_append, List.append_assoc]
      rfl
    have hdata2 : (body ++ "\n[" ++ rest).data = body.data ++ '\n' :: '[' :: rest.data := by
      simp only [strData_append, List.append_assoc]
      rfl
    simp only [hdata] at h1
    simp only [hdata2] at h2
    unfold update_ass_styles
    rw [hdata, update_core_insert body.data rest.data h1 h2]
    rw [← strMk_data ("[Script Info]" ++ body ++ "\n" ++ ourStyleHeaderStr ++ "\n[" ++ rest)]
    apply congrArg String.mk
    simp only [strData_append, List.append_assoc]
    rfl
  · intro body h1 h2 h3
    have hdata : ("[Script Info]" ++ body).data = scriptInfoPat ++ body.data := by
      simp only [strData_append]
      rfl
    simp only [hdata] at h1
    unfold update_ass_styles
    rw [hdata, update_core_insert_end body.data h1 h2]
    · rw [← strMk_data ("[Script Info]" ++ body ++ "\n" ++ ourStyleHeaderStr)]
      apply congrArg String.mk
      simp only [strData_append, List.append_assoc]
      rfl
    · intro e he
      intro hcontra
      subst hcontra
      exact h3 he

set_option maxRecDepth 200000 in
/-- Witness for C6: both insertion positions on concrete documents. -/
theorem update_ass_styles_inserts_witness :
    update_ass_styles ("[Script Info]" ++ "\nTitle: T" ++ "\n[" ++ "Events]\nDialogue: x")
      = "[Script Info]" ++ "\nTitle: T" ++ "\n" ++ ourStyleHeaderStr ++ "\n["
        ++ "Events]\nDialogue: x"
    ∧ update_ass_styles ("[Script Info]" ++ "\nTitle: T")
      = "[Script Info]" ++ "\nTitle: T" ++ "\n" ++ ourStyleHeaderStr :=
  ⟨update_ass_styles_inserts.1 "\nTitle: T" "Events]\nDialogue: x" (by decide) (by decide),
   update_ass_styles_inserts.2 "\nTitle: T" (by decide) (by decide) (by decide)⟩

/-- C4: for a document of `N` well-formed and `M` malformed blocks
interspersed in any order (tame line content; every block either
well-formed — at least three lines and a time line splitting into exactly
two parts — or malformed — fewer than three lines or no separator),
`convert_srt_to_ass` succeeds and the lines of its output beginning with
`Dialogue:` are exactly the dialogue lines of the well-formed blocks, in
their input order: `N` of them. -/
theorem convert_cue_count (bs : List (List (List Char))) (hne : bs ≠ [])
    (htame : ∀ b ∈ bs, b ≠ [] ∧ ∀ l ∈ b, tameLine l = true)
    (hstat : ∀ b ∈ bs, wellFormedLines b = true ∨ malformedLines b = true) :
    (convert_srt_to_ass (mkSrt bs)).map dialogueLines
      = some (((bs.filter wellFormedLines).map dialogueOf).map
          (fun d => (⟨d⟩ : String))) := by
  have hdata : (mkSrt bs).data = joinWith ['\n', '\n'] (bs.map serBlock) := rfl
  unfold convert_srt_to_ass
  rw [hdata, convertCore_doc bs hne htame hstat]
  simp only [Option.map_some']
  have hds : ∀ d ∈ (bs.filter wellFormedLines).map dialogueOf,
      d ≠ [] ∧ ∀ c ∈ d, c ≠ '\n' ∧ c ≠ '\r' := by
    intro d hd
    obtain ⟨b, hbmem, rfl⟩ := List.mem_map.mp hd
    have hbf := List.mem_filter.mp hbmem
    exact ⟨dialogueOf_ne_nil hbf.2, dialogueOf_chars hbf.2 (htame b hbf.1).2⟩
  have hpref : ∀ d ∈ (bs.filter wellFormedLines).map dialogueOf,
      ("Dialogue:".data).isPrefixOf d = true := by
    intro d hd
    obtain ⟨b, hbmem, rfl⟩ := List.mem_map.mp hd
    exact dialogueOf_isDialogue (List.mem_filter.mp hbmem).2
  rw [dialogueLines_output _ hds hpref]

/-- Witness for C4: one well-formed and one malformed block. -/
theorem convert_cue_count_witness :
    (convert_srt_to_ass (mkSrt [["1".data, "00:00:01,000 --> 00:00:02,000".data, "Hi".data],
        ["x".data]])).map dialogueLines
      = some ((([["1".data, "00:00:01,000 --> 00:00:02,000".data, "Hi".data],
          ["x".data]].filter wellFormedLines).map dialogueOf).map
            (fun d => (⟨d⟩ : String))) :=
  convert_cue_count _ (by decide) (by decide) (by decide)

set_option maxRecDepth 400000 in
/-- C7: the two-cue example document produces exactly the two expected
`Dialogue:` lines, in order. -/
theorem convert_two_cues :
    convert_srt_to_ass
        "1\n00:00:01,000 --> 00:00:03,500\nHello there\n\n2\n00:00:04,250 --> 00:00:05,000\nSecond line"
      = some (headerStr
          ++ "Dialogue: 0,0:00:01.00,0:00:03.50,Default,,0,0,0,,Hello there\nDialogue: 0,0:00:04.25,0:00:05.00,Default,,0,0,0,,Second line")
    ∧ dialogueLines (headerStr
          ++ "Dialogue: 0,0:00:01.00,0:00:03.50,Default,,0,0,0,,Hello there\nDialogue: 0,0:00:04.25,0:00:05.00,Default,,0,0,0,,Second line")
      = ["Dialogue: 0,0:00:01.00,0:00:03.50,Default,,0,0,0,,Hello there",
         "Dialogue: 0,0:00:04.25,0:00:05.00,Default,,0,0,0,,Second line"] := by
  constructor
  · decide
  · decide

/-- C8: for every well-formed block — index line, a time line splitting
on `" --> "` into a start and an end, and text lines `ts` — the dialogue
text emitted by `convert_srt_to_ass` is the text lines joined with the
literal two-character sequence `\N` (backslash, capital N):
`joinWith ['\\', 'N'] ts`. -/
theorem convert_joins_text_lines (l0 l1 : List Char) (ts : List (List Char))
    (st en : List Char)
    (h0 : tameLine l0 = true) (h1 : tameLine l1 = true)
    (hts : ts ≠ []) (htt : ∀ t ∈ ts, tameLine t = true)
    (hse : splitArrow (pyStrip l1) = [st, en]) :
    convert_srt_to_ass (mkSrt [l0 :: l1 :: ts])
      = some ⟨headerStr.data ++ ("Dialogue: 0,".data ++ srtTimeCore (pyStrip st) ++
          ',' :: (srtTimeCore (pyStrip en) ++
            (",Default,,0,0,0,,".data ++ joinWith ['\\', 'N'] ts)))⟩ := by
  obtain ⟨t2, ts2, rfl⟩ : ∃ t2 ts2, ts = t2 :: ts2 := by
    cases hc : ts with
    | nil => exact absurd hc hts
    | cons t2 ts2 => exact ⟨t2, ts2, rfl⟩
  have hwf : wellFormedLines (l0 :: l1 :: t2 :: ts2) = true := by
    have he : wellFormedLines (l0 :: l1 :: t2 :: ts2)
        = ((splitArrow (pyStrip l1)).length == 2) := rfl
    rw [he, hse]
    rfl
  have hdata : (mkSrt [l0 :: l1 :: t2 :: ts2]).data
      = joinWith ['\n', '\n'] ([l0 :: l1 :: t2 :: ts2].map serBlock) := rfl
  have htame : ∀ b ∈ [l0 :: l1 :: t2 :: ts2], b ≠ [] ∧ ∀ l ∈ b, tameLine l = true := by
    intro b hb
    simp at hb
    subst hb
    refine ⟨by simp, ?_⟩
    intro l hl
    rcases List.mem_cons.mp hl with rfl | hl
    · exact h0
    · rcases List.mem_cons.mp hl with rfl | hl
      · exact h1
      · exact htt l hl
  unfold convert_srt_to_ass
  rw [hdata, convertCore_doc _ (by simp) htame (fun b hb => by simp at hb; subst hb; exact Or.inl hwf)]
  have hfil : [l0 :: l1 :: t2 :: ts2].filter wellFormedLines = [l0 :: l1 :: t2 :: ts2] := by
    rw [List.filter_cons, if_pos hwf]
    rfl
  rw [hfil]
  simp only [Option.map_some', List.map_cons, List.map_nil]
  rw [dialogueOf_eq hse]
  rfl

/-- Witness for C8: the two text lines `"Hello"` and `"world"` joined
with the literal `\N`. -/
theorem convert_joins_text_lines_witness :
    convert_srt_to_ass (mkSrt [["1".data, "00:00:01,000 --> 00:00:02,000".data,
        "Hello".data, "world".data]])
      = some ⟨headerStr.data ++ ("Dialogue: 0,".data
          ++ srtTimeCore (pyStrip "00:00:01,000".data) ++
          ',' :: (srtTimeCore (pyStrip "00:00:02,000".data) ++
            (",Default,,0,0,0,,".data
              ++ joinWith ['\\', 'N'] ["Hello".data, "world".data])))⟩ :=
  convert_joins_text_lines "1".data "00:00:01,000 --> 00:00:02,000".data
    ["Hello".data, "world".data] "00:00:01,000".data "00:00:02,000".data
    (by decide) (by decide) (by decide) (by decide) (by decide)
